import Mathlib

/-!
Verification development for the pyclj codec (`src/clj.py`): a decoder from
Clojure literal notation to a Python-style value model, and an encoder back.
The decoder (`CljDecoder`) is embedded as a fuel-indexed function over a
character-list stream with an explicit position, mirroring the seekable
`StringIO` the source reads from; the encoder (`CljEncoder`) is embedded over
a heap of collection objects so that CPython object identity (`id`) is
expressible.  External library calls (`decimal.Decimal`, `pyrfc3339`,
`uuid.UUID`, `codecs`-level Unicode name lookup) are modelled as noted at
each definition.
-/

namespace Clj

/-- Left brace character, written numerically. -/
def lbrace : Char := Char.ofNat 123

/-- Right brace character, written numerically. -/
def rbrace : Char := Char.ofNat 125

/-- The Python value model produced by the decoder (tree form).
`float` and `dec` abstract CPython `float` / `decimal.Decimal` by the exact
numeric token they were built from (no claim settled here compares two
distinct float or decimal tokens for numeric equality); `datetime` / `uuid`
abstract the external `pyrfc3339` / `uuid` codecs by the canonical text that
parses to the value.  `set` holds its members deduplicated in first-seen
order (CPython set iteration order is unspecified; no claim compares two
sets built in different orders).  `tuple` is the ordered-sequence fallback
the decoder produces for sets with unhashable members. -/
inductive Value where
  | nil
  | bool (b : Bool)
  | int (n : Int)
  | float (tok : String)
  | dec (tok : String)
  | str (s : String)
  | list (xs : List Value)
  | tuple (xs : List Value)
  | set (xs : List Value)
  | dict (entries : List (Value × Value))
  | datetime (canon : String)
  | uuid (canon : String)

mutual

/-- Structural equality on values, modelling CPython `==` as the decoder
uses it (set deduplication, dict key lookup).  CPython `==` is coarser
across numeric kinds (`1 == 1.0`); no settled claim depends on that. -/
def vbeq : Value → Value → Bool
  | .nil, .nil => true
  | .bool a, .bool b => a == b
  | .int a, .int b => a == b
  | .float a, .float b => a == b
  | .dec a, .dec b => a == b
  | .str a, .str b => a == b
  | .list a, .list b => lbeq a b
  | .tuple a, .tuple b => lbeq a b
  | .set a, .set b => lbeq a b
  | .dict a, .dict b => pbeq a b
  | .datetime a, .datetime b => a == b
  | .uuid a, .uuid b => a == b
  | _, _ => false

/-- Elementwise `vbeq` on lists of values. -/
def lbeq : List Value → List Value → Bool
  | [], [] => true
  | a :: as, b :: bs => vbeq a b && lbeq as bs
  | _, _ => false

/-- Elementwise `vbeq` on lists of key/value pairs. -/
def pbeq : List (Value × Value) → List (Value × Value) → Bool
  | [], [] => true
  | (k1, v1) :: as, (k2, v2) :: bs => vbeq k1 k2 && vbeq v1 v2 && pbeq as bs
  | _, _ => false

end

/-- Decode-time failure outcomes of `CljDecoder`.  The four constructors
carrying `(line col)` model the `ValueError`s raised with a
`"... at line %d, col %d"` message; the others model raises (or hangs) whose
message carries no position.  `hang` marks inputs on which the source's
`while` loops re-read the empty string at end-of-file forever (the model's
structural recursion runs out of stream); `fuelOut` is the model's fuel
exhaustion and is unreachable for the fuel chosen by `decodeText`. -/
inductive DErr where
  | eof
  | expectTrue (got : String) (line col : Nat)
  | expectFalse (got : String) (line col : Nat)
  | expectNil (got : String) (line col : Nat)
  | unexpectedChar (c : Char) (line col : Nat)
  | strExpected
  | numErr
  | indexErr
  | typeErr
  | badEscape
  | hang
  | popEmpty
  | fuelOut
deriving Repr, DecidableEq

/-- Does this decode error carry a line/column position?  True exactly for
the errors raised via a `"at line %d, col %d"` format in the source. -/
def DErr.hasPos : DErr → Bool
  | .expectTrue _ _ _ => true
  | .expectFalse _ _ _ => true
  | .expectNil _ _ _ => true
  | .unexpectedChar _ _ _ => true
  | _ => false

/-- `_STOP_CHARS` from the source. -/
def stopChars : List Char := [' ', ',', '\n', '\r', '\t']

/-- `_COLL_OPEN_CHARS` from the source. -/
def collOpenChars : List Char := ['#', '[', lbrace, '(']

/-- `_COLL_CLOSE_CHARS` from the source. -/
def collCloseChars : List Char := [']', rbrace, ')']

/-- `_EXTRA_NUM_CHARS` from the source. -/
def extraNumChars : List Char := ['-', '+', '.', 'e', 'E', 'M']

/-! ### Integer printing and parsing (CPython `str(int)` / `int(str)`) -/

/-- Decimal digit `d < 10` as a character. -/
def digitChar : Nat → Char
  | 0 => '0' | 1 => '1' | 2 => '2' | 3 => '3' | 4 => '4'
  | 5 => '5' | 6 => '6' | 7 => '7' | 8 => '8' | _ => '9'

/-- Big-endian decimal digits of `n` (with fuel; `fuel > n` suffices). -/
def natStrAux : Nat → Nat → List Char
  | 0, _ => []
  | fuel + 1, n =>
    if n < 10 then [digitChar n]
    else natStrAux fuel (n / 10) ++ [digitChar (n % 10)]

/-- CPython `str` of a natural number. -/
def pyNatStr (n : Nat) : String := ⟨natStrAux (n + 1) n⟩

/-- CPython `str` of an `int` (sign-then-digits, no plus sign). -/
def pyIntStr (n : Int) : String :=
  if n < 0 then "-" ++ pyNatStr n.natAbs else pyNatStr n.toNat

/-- Numeric value of a decimal digit character. -/
def digitVal (c : Char) : Nat := c.toNat - 48

/-- Left fold of decimal digits into a natural number. -/
def natParseAux : Nat → List Char → Nat
  | acc, [] => acc
  | acc, c :: cs => natParseAux (acc * 10 + digitVal c) cs

/-- CPython `int(s)` on tokens made of an optional sign and digits.  (The
real builtin also tolerates surrounding whitespace and underscores, which
the decoder's numeric tokens never contain.) -/
def pyIntParse? (s : String) : Option Int :=
  match s.data with
  | [] => none
  | c :: cs =>
    if c = '-' then
      if cs ≠ [] ∧ cs.all (·.isDigit) then some (-(natParseAux 0 cs : Nat)) else none
    else if c = '+' then
      if cs ≠ [] ∧ cs.all (·.isDigit) then some (natParseAux 0 cs : Nat) else none
    else
      if (c :: cs).all (·.isDigit) then some (natParseAux 0 (c :: cs) : Nat) else none

/-! ### Float and decimal token classification

CPython `float(s)` / `decimal.Decimal(s)` are external to the repository;
their acceptance of a token is modelled syntactically, and the values are
abstracted by the token itself (see `Value`). -/

/-- Drop one leading sign character. -/
def dropSign : List Char → List Char
  | '+' :: r => r
  | '-' :: r => r
  | l => l

/-- Nonempty all-digit run. -/
def isUDigits (l : List Char) : Bool := !l.isEmpty && l.all (·.isDigit)

/-- Unsigned float mantissa: `digits`, `digits.`, `digits.digits` or
`.digits`. -/
def isUMant (l : List Char) : Bool :=
  let a := l.takeWhile (·.isDigit)
  match l.drop a.length with
  | [] => !a.isEmpty
  | '.' :: r => (!a.isEmpty || !r.isEmpty) && r.all (·.isDigit)
  | _ => false

/-- Does CPython `float(s)` accept the token?  (The `inf` / `nan` word
forms are omitted: the decoder only ever passes tokens drawn from the
digit/`-+.eEM` character classes to `number`.) -/
def isFloatTok (s : String) : Bool :=
  let l := dropSign s.data
  let m := l.takeWhile (fun c => c != 'e' && c != 'E')
  match l.drop m.length with
  | [] => isUMant m
  | _ :: r => isUMant m && isUDigits (dropSign r)

/-! Modelled from the spec: `decimal.Decimal` is external; per the spec an
arbitrary-precision decimal preserves its exact decimal digits and encodes
as those digits followed by `M`.  A decimal value is abstracted by its
canonical fixed-notation token: optional `-`, an integer part without
leading zeros (or exactly `0`), and an optional fraction part.  On these
tokens CPython's `str(Decimal(tok)) = tok` holds, which the token
abstraction builds in; scientific-notation tokens are outside the model. -/

/-- Integer part of a canonical decimal token: `0` alone, or digits with
no leading zero. -/
def decIntOk (a : List Char) : Bool :=
  a = ['0'] || (!a.isEmpty && a.headD '0' ≠ '0')

/-- What may follow the integer part: nothing, or a point and digits. -/
def decFracOk : List Char → Bool
  | [] => true
  | c :: r => c = '.' && isUDigits r

/-- The unsigned body of a canonical fixed-notation decimal token: an
integer part without leading zeros (or exactly `0`) and an optional
nonempty fraction part. -/
def isDecCore (l : List Char) : Bool :=
  decIntOk (l.takeWhile (·.isDigit)) && decFracOk (l.drop (l.takeWhile (·.isDigit)).length)

def isDecTok (s : String) : Bool :=
  match s.data with
  | [] => false
  | c :: cs => isDecCore (if c = '-' then cs else c :: cs)

/-- The `number` helper of the source: trailing `M` means decimal, else try
`int`, else `float`.  `numErr` models the uncaught exception when all three
fail. -/
def number (v : String) : Except DErr Value :=
  if v.data.getLast? = some 'M' then
    let t : String := ⟨v.data.dropLast⟩
    if isDecTok t then .ok (.dec t) else .error .numErr
  else
    match pyIntParse? v with
    | some n => .ok (.int n)
    | none => if isFloatTok v then .ok (.float v) else .error .numErr

/-! ### Escape Resolver (`ESCAPE_SEQUENCE_RE` and `_decode_escapes`)

The source regex alternatives, in order: `\U` + 8 characters, `\u` + 4
characters, `\x` + 2 characters (the `.` of the pattern matches any
character but a newline, hex validity is only checked when the match is
decoded), 1–3 octal digits (greedy), `\N{name}`, and the single-character
class ``\\ \' \" a b f n r t v``.  A backslash starting none of these is
left in place and scanning resumes at the next character, exactly as
`re.sub` does.  Decoding a matched group models
`codecs.decode(group, "unicode-escape")`: invalid hex digits, a code point
above `0x10FFFF`, or an unknown `\N` name raise (`badEscape`).  The
Unicode-name table is external state, abstracted as the `lookup` argument
(the decoder instantiates it with the empty table `noLookup`; no settled
claim involves `\N` escapes).  CPython `chr` also admits lone surrogates,
which Lean `Char` cannot carry; `Char.ofNat` maps them to `U+0000`, and no
settled claim involves surrogate escapes. -/

/-- Hexadecimal digit value. -/
def hexVal? (c : Char) : Option Nat :=
  if '0' ≤ c ∧ c ≤ '9' then some (c.toNat - 48)
  else if 'a' ≤ c ∧ c ≤ 'f' then some (c.toNat - 87)
  else if 'A' ≤ c ∧ c ≤ 'F' then some (c.toNat - 55)
  else none

/-- Fold hexadecimal digits; `none` if any character is not a hex digit. -/
def hexFold? : Nat → List Char → Option Nat
  | acc, [] => some acc
  | acc, c :: cs =>
    match hexVal? c with
    | some d => hexFold? (acc * 16 + d) cs
    | none => none

/-- Octal digit test. -/
def isOct (c : Char) : Bool := '0' ≤ c && c ≤ '7'

/-- Fold octal digits. -/
def octFold : Nat → List Char → Nat
  | acc, [] => acc
  | acc, c :: cs => octFold (acc * 8 + (c.toNat - 48)) cs

/-- The single-character escape class of the regex, with the character each
member decodes to. -/
def singleEsc? (c : Char) : Option Char :=
  if c = '\\' then some '\\'
  else if c = Char.ofNat 39 then some (Char.ofNat 39)
  else if c = '"' then some '"'
  else if c = 'a' then some (Char.ofNat 7)
  else if c = 'b' then some (Char.ofNat 8)
  else if c = 'f' then some (Char.ofNat 12)
  else if c = 'n' then some '\n'
  else if c = 'r' then some '\r'
  else if c = 't' then some '\t'
  else if c = 'v' then some (Char.ofNat 11)
  else none

/-- The regex alternation tried after a backslash, over the continuation
`esc` that scans the rest of the input.  Falling through every alternative
re-emits the backslash and resumes scanning at the character after it, as
`re.sub` does when no pattern matches at the backslash. -/
def escAfterBs (lookup : String → Option Char) (esc : List Char → Except DErr (List Char)) (rest : List Char) : Except DErr (List Char) :=
  match rest with
  | [] => ('\\' :: ·) <$> esc rest
  | d :: r =>
    if d = 'U' then
      if (r.take 8).length = 8 ∧ (r.take 8).all (· ≠ '\n') then
        match hexFold? 0 (r.take 8) with
        | some v =>
          if v ≤ 0x10FFFF then (Char.ofNat v :: ·) <$> esc (r.drop 8)
          else .error .badEscape
        | none => .error .badEscape
      else ('\\' :: ·) <$> esc rest
    else if d = 'u' then
      if (r.take 4).length = 4 ∧ (r.take 4).all (· ≠ '\n') then
        match hexFold? 0 (r.take 4) with
        | some v => (Char.ofNat v :: ·) <$> esc (r.drop 4)
        | none => .error .badEscape
      else ('\\' :: ·) <$> esc rest
    else if d = 'x' then
      if (r.take 2).length = 2 ∧ (r.take 2).all (· ≠ '\n') then
        match hexFold? 0 (r.take 2) with
        | some v => (Char.ofNat v :: ·) <$> esc (r.drop 2)
        | none => .error .badEscape
      else ('\\' :: ·) <$> esc rest
    else if isOct d then
      let os := (rest.takeWhile isOct).take 3
      (Char.ofNat (octFold 0 os) :: ·) <$> esc (rest.drop os.length)
    else if d = 'N' then
      match r with
      | b :: r2 =>
        if b = lbrace then
          let name := r2.takeWhile (· ≠ rbrace)
          if name ≠ [] ∧ (r2.drop name.length).take 1 = [rbrace] then
            match lookup ⟨name⟩ with
            | some ch => (ch :: ·) <$> esc (r2.drop (name.length + 1))
            | none => .error .badEscape
          else ('\\' :: ·) <$> esc rest
        else ('\\' :: ·) <$> esc rest
      | [] => ('\\' :: ·) <$> esc rest
    else
      match singleEsc? d with
      | some ch => (ch :: ·) <$> esc r
      | none => ('\\' :: ·) <$> esc rest

/-- One left-to-right `re.sub` pass of `_decode_escapes` (fuel-indexed;
`length + 1` fuel always suffices since every step consumes a character). -/
def escScanF (lookup : String → Option Char) : Nat → List Char → Except DErr (List Char)
  | 0, _ => .error .fuelOut
  | f + 1, l =>
    match l with
    | [] => .ok []
    | c :: rest =>
      if c = '\\' then escAfterBs lookup (escScanF lookup f) rest
      else (c :: ·) <$> escScanF lookup f rest

/-- The empty Unicode-name table used when running the whole decoder. -/
def noLookup : String → Option Char := fun _ => none

/-- `_decode_escapes` of the source, over a given name table. -/
def decodeEscapes (lookup : String → Option Char) (s : String) : Except DErr String :=
  (⟨·⟩) <$> escScanF lookup (s.data.length + 1) s.data

/-! ### String encoding (`json.encoder.py_encode_basestring_ascii`) -/

/-- Lowercase hexadecimal digit. -/
def hexDigitL : Nat → Char
  | 0 => '0' | 1 => '1' | 2 => '2' | 3 => '3' | 4 => '4' | 5 => '5'
  | 6 => '6' | 7 => '7' | 8 => '8' | 9 => '9' | 10 => 'a' | 11 => 'b'
  | 12 => 'c' | 13 => 'd' | 14 => 'e' | _ => 'f'

/-- Four lowercase hex digits of `n < 0x10000`. -/
def hex4 (n : Nat) : List Char :=
  [hexDigitL (n / 4096 % 16), hexDigitL (n / 256 % 16),
   hexDigitL (n / 16 % 16), hexDigitL (n % 16)]

/-- How `py_encode_basestring_ascii` writes one character: the short-escape
table for backslash, quote and the five named controls; printable ASCII
verbatim; `\uXXXX` for other BMP characters; a UTF-16 surrogate pair of
`\uXXXX` escapes for astral characters. -/
def escUnit (c : Char) : List Char :=
  if c = '\\' then ['\\', '\\']
  else if c = '"' then ['\\', '"']
  else if c.toNat = 8 then ['\\', 'b']
  else if c.toNat = 9 then ['\\', 't']
  else if c.toNat = 10 then ['\\', 'n']
  else if c.toNat = 12 then ['\\', 'f']
  else if c.toNat = 13 then ['\\', 'r']
  else if 0x20 ≤ c.toNat ∧ c.toNat ≤ 0x7e then [c]
  else if c.toNat ≤ 0xFFFF then '\\' :: 'u' :: hex4 c.toNat
  else
    let v := c.toNat - 0x10000
    ('\\' :: 'u' :: hex4 (0xD800 + v / 0x400)) ++ ('\\' :: 'u' :: hex4 (0xDC00 + v % 0x400))

/-- The escaped body of a string (no surrounding quotes). -/
def escBody (l : List Char) : List Char := (l.map escUnit).flatten

/-- `py_encode_basestring_ascii`: quoted, ASCII-safe-escaped form. -/
def pyEncStr (s : String) : String := ⟨'"' :: escBody s.data ++ ['"']⟩

/-! ### Decoder stream state

The source reads single characters through `__read_fd(1)`, which advances
the stream and updates the position counters: a newline sets the column to
`0` and bumps the line; any other single-character read leaves the column
unchanged.  A multi-character read `__read_fd(n)` adds `n` to the column
(even when fewer characters remain) and never touches the line.
`__read_and_back` peeks through the raw `fd.read`, updating no counters. -/

structure RS where
  data : List Char
  pos : Nat
  line : Nat
  col : Nat
deriving Repr, DecidableEq

/-- Characters not yet consumed. -/
def RS.rem (s : RS) : List Char := s.data.drop s.pos

/-- Account for a run of single-character reads of exactly `cs`. -/
def advChars (s : RS) (cs : List Char) : RS :=
  { s with pos := s.pos + cs.length,
           line := s.line + cs.count '\n',
           col := if cs.contains '\n' then 0 else s.col }

/-- `__read_fd(1)`. -/
def read1 (s : RS) : Option Char × RS :=
  match s.rem with
  | [] => (none, s)
  | c :: _ => (some c, advChars s [c])

/-- `__read_fd(n)` for `n > 1`. -/
def readN (s : RS) (n : Nat) : List Char × RS :=
  (s.rem.take n,
   { s with pos := s.pos + (s.rem.take n).length, col := s.col + n })

/-- `__read_and_back(n)`: peek without consuming or counting. -/
def peekN (s : RS) (n : Nat) : List Char := s.rem.take n

/-- `_seek_back(fd, n)`. -/
def seekBack (s : RS) (n : Nat) : RS := { s with pos := s.pos - n }

/-! ### Token-level scanning loops, as pure functions of the remaining
stream.  Each returns the characters it consumed, so the caller can apply
`advChars`. -/

/-- Skip the stop-character class, returning the first significant
character (`none` models the empty read at end of stream) and every
character consumed, that one included. -/
def skipStopsL : List Char → Option Char × List Char
  | [] => (none, [])
  | c :: rest =>
    if c ∈ stopChars then
      let (r, cs) := skipStopsL rest
      (r, c :: cs)
    else (some c, [c])

/-- Numeric-token character class: digits plus `_EXTRA_NUM_CHARS`. -/
def isNumChar (c : Char) : Bool := c.isDigit || c ∈ extraNumChars

/-- The number-accumulation loop: starting from current character `c?`,
keep consuming while in the numeric class.  Returns the accumulated token,
the stopping character (`none` at end of stream) and the characters
consumed from the remaining stream. -/
def numLoopL : Option Char → List Char → List Char × Option Char × List Char
  | none, _ => ([], none, [])
  | some c, rem =>
    if isNumChar c then
      match rem with
      | [] => ([c], none, [])
      | d :: rest =>
        let (b, e, cs) := numLoopL (some d) rest
        (c :: b, e, d :: cs)
    else ([], some c, [])

/-- The guard of the keyword/character loops:
`c is not terminator and c is not "" and c not in _STOP_CHARS`.
The first comparison can only be equal when both sides are characters
(`""` is never identical to a one-character terminator, and any string is
`is not None`). -/
def tokGuard (term : Option Char) : Option Char → Bool
  | none => false
  | some c =>
    (match term with
     | some t => c ≠ t
     | none => true) && c ∉ stopChars

/-- Keyword/character accumulation: the loop body reads a character and
appends it, so the stopping character (or the empty end-of-stream read,
kept as `none`) ends up in the buffer and is later dropped by `buf[:-1]`. -/
def tokLoopL (term : Option Char) : Option Char → List Char → List (Option Char) × Option Char × List Char
  | c?, rem =>
    if tokGuard term c? then
      match rem with
      | [] => ([none], none, [])
      | d :: rest =>
        let (b, e, cs) := tokLoopL term (some d) rest
        (some d :: b, e, d :: cs)
    else ([], c?, [])

/-- The string-scanning loop `while not (c == '"' and cp != "\\")`, with
the current character at the head of the list and `cp` the previously read
character.  Returns the accumulated body and the stream after the closing
quote; `none` when the stream ends first — the source then re-reads the
empty string forever and never returns. -/
def strScanL : Option Char → List Char → Option (List Char × List Char)
  | _, [] => none
  | cp, c :: rest =>
    if c = '"' ∧ cp ≠ some '\\' then some ([], rest)
    else (strScanL (some c) rest).map (fun p => (c :: p.1, p.2))

/-- Entry to the string scan: `cp = c = self.__read_fd(1)` seeds both the
current and previous character with the first character after the opening
quote. -/
def strScanStart (rem : List Char) : Option (List Char × List Char) :=
  match rem with
  | [] => none
  | c0 :: _ => strScanL (some c0) rem

/-- The namespace loop `while c != "{"`, entered with the current
character (the already-consumed `#`); consumes up to and including the
opening brace, or hangs (`none`) at end of stream. -/
def nsLoopL : Char → List Char → Option (List Char)
  | c, rem =>
    if c = lbrace then some []
    else
      match rem with
      | [] => none
      | d :: rest => (nsLoopL d rest).map (d :: ·)

/-! ### Collection frames and folding -/

inductive CollKind where
  | kset | klist | kdict | knsdict
deriving Repr, DecidableEq

/-- One entry of `value_stack`: accumulated members, expected terminator,
collection kind, optional namespace. -/
structure Frame where
  scope : List Value
  term : Char
  kind : CollKind
  ns : Option String

/-- Full decoder state: stream plus `value_stack` and `self.terminator`. -/
structure DState where
  rs : RS
  stack : List Frame
  term : Option Char

/-- Python-side hashability of a decoded value: scalars hash; `list`,
`dict` and `set` do not; a `tuple` hashes when all its members do. -/
def pyHashable : Value → Bool
  | .list _ => false
  | .dict _ => false
  | .set _ => false
  | .tuple xs => goList xs
  | _ => true
where
  goList : List Value → Bool
    | [] => true
    | x :: xs => pyHashable x && goList xs

/-- First-occurrence deduplication by `vbeq`, modelling `set()` built from
a list (iteration order abstracted as insertion order). -/
def dedupAux (seen : List Value) : List Value → List Value
  | [] => []
  | x :: xs =>
    if seen.any (vbeq x) then dedupAux seen xs
    else x :: dedupAux (x :: seen) xs

/-- CPython `str()` of a value, used when a namespaced key is formatted
with `"%s/%s"`.  Scalars are faithful; the textual form of container keys
is simplified (no settled claim inspects it — only that the formatted key
is a string). -/
def pyStrOf : Value → String
  | .nil => "None"
  | .bool true => "True"
  | .bool false => "False"
  | .int n => pyIntStr n
  | .float t => t
  | .dec t => t
  | .str s => s
  | .datetime c => c
  | .uuid c => c
  | .list _ => "<list>"
  | .tuple _ => "<tuple>"
  | .set _ => "<set>"
  | .dict _ => "<dict>"

/-- Key formation for map folding: with a truthy (nonempty) namespace the
key is the string `"<namespace>/<key>"`, otherwise the decoded key value
itself. -/
def mkKey (ns : Option String) (k : Value) : Value :=
  match ns with
  | some n => if n = "" then k else .str (n ++ "/" ++ pyStrOf k)
  | none => k

/-- `v[key] = val` on the modelled dict: overwrite in place or append. -/
def dictput (es : List (Value × Value)) (k v : Value) : List (Value × Value) :=
  match es with
  | [] => [(k, v)]
  | (k0, v0) :: rest =>
    if vbeq k0 k then (k0, v) :: rest else (k0, v0) :: dictput rest k v

/-- The pair-folding loop `for i in range(0, len(scope), 2)`: member `i`
becomes the key, member `i + 1` the value.  A trailing unpaired member
makes `current_scope[i + 1]` raise `IndexError` (no position info); an
unhashable key makes the dict assignment raise `TypeError`. -/
def foldPairsAux (ns : Option String) (acc : List (Value × Value)) : List Value → Except DErr (List (Value × Value))
  | [] => .ok acc
  | [_] => .error .indexErr
  | k :: v :: rest =>
    let key := mkKey ns k
    if pyHashable key then foldPairsAux ns (dictput acc key v) rest
    else .error .typeErr

/-- Folding a completed frame's members into its collection value:
`set(...)` with a `tuple` fallback on `TypeError`; `list` as-is; maps via
pair folding. -/
def foldScope (k : CollKind) (ns : Option String) (scope : List Value) : Except DErr Value :=
  match k with
  | .kset =>
    if scope.all pyHashable then .ok (.set (dedupAux [] scope))
    else .ok (.tuple scope)
  | .klist => .ok (.list scope)
  | .kdict => .dict <$> foldPairsAux ns [] scope
  | .knsdict => .dict <$> foldPairsAux ns [] scope

/-- `e == self.terminator` — only ever true between two actual characters
(the empty end-of-stream read is not `==` to `None` or to a character). -/
def closesQ (e term : Option Char) : Bool :=
  match e, term with
  | some a, some b => a = b
  | _, _ => false

/-- The tail of `__read_token` shared by every scalar branch: if the end
character closes the innermost frame, pop and fold it; then, if data
remains to be appended and a frame is open, append and re-arm the active
terminator.  A pop with an empty stack cannot happen on runs started by
`decode` (`popEmpty` marks it). -/
def finishToken (st : DState) (v : Value) (e : Option Char) (r : Bool) : Except DErr (Value × DState) :=
  if closesQ e st.term then
    match st.stack with
    | [] => .error .popEmpty
    | f :: rest =>
      let scope := if r then f.scope ++ [v] else f.scope
      match foldScope f.kind f.ns scope with
      | .error er => .error er
      | .ok v2 =>
        match rest with
        | [] => .ok (v2, { st with stack := [] })
        | g :: grest =>
          .ok (v2, { st with stack := { g with scope := g.scope ++ [v2] } :: grest,
                             term := some g.term })
  else
    if r then
      match st.stack with
      | [] => .ok (v, st)
      | g :: grest =>
        .ok (v, { st with stack := { g with scope := g.scope ++ [v] } :: grest,
                          term := some g.term })
    else .ok (v, st)

/-- The lead-character type dispatch `__get_type_from_char`, with the
stream peeks for `#`. -/
inductive TType where
  | number | boolean | nilT | charT | keyword | stringT
  | setT | nsdict | datetimeT | uuidT | dictT | listT | unknown
deriving Repr, DecidableEq

def getTypeD (c : Char) (s : RS) : TType × Bool × Option Char :=
  if c.isDigit ∨ c = '-' then (.number, false, none)
  else if c = 't' ∨ c = 'f' then (.boolean, false, none)
  else if c = 'n' then (.nilT, false, none)
  else if c = '\\' then (.charT, false, none)
  else if c = ':' then (.keyword, false, none)
  else if c = '"' then (.stringT, false, none)
  else if c = '#' then
    if peekN s 1 = [lbrace] then (.setT, true, some rbrace)
    else if peekN s 1 = [':'] then (.nsdict, true, some rbrace)
    else if peekN s 4 = ['i', 'n', 's', 't'] then (.datetimeT, false, none)
    else if peekN s 4 = ['u', 'u', 'i', 'd'] then (.uuidT, false, none)
    else (.unknown, false, none)
  else if c = lbrace then (.dictT, true, some rbrace)
  else if c = '(' then (.listT, true, some ')')
  else if c = '[' then (.listT, true, some ']')
  else (.unknown, false, none)

/-- `__read_token`.  Fuel only bounds the nested recursive call of the
tagged-literal branches (`#inst` / `#uuid`); each nesting level consumes at
least five characters, so `length + 1` fuel is never exhausted. -/
def readToken : Nat → DState → Except DErr (Value × DState)
  | 0, _ => .error .fuelOut
  | fuel + 1, st =>
    let (c?, consumed) := skipStopsL st.rs.rem
    let rs1 := advChars st.rs consumed
    match c? with
    | none => .error .eof
    | some c =>
      match getTypeD c rs1 with
      | (t, true, some tc) =>
        match t with
        | .setT =>
          let (_, rs2) := read1 rs1
          .ok (.nil, { rs := rs2,
                       stack := ⟨[], tc, .kset, none⟩ :: st.stack,
                       term := some tc })
        | .nsdict =>
          let (_, rs2) := read1 rs1
          match nsLoopL c rs2.rem with
          | none => .error .hang
          | some consumed2 =>
            let rs3 := advChars rs2 consumed2
            let nsStr : String := ⟨consumed2.dropLast⟩
            .ok (.nil, { rs := rs3,
                         stack := ⟨[], tc, .knsdict, some nsStr⟩ :: st.stack,
                         term := some tc })
        | .dictT =>
          .ok (.nil, { rs := rs1,
                       stack := ⟨[], tc, .kdict, none⟩ :: st.stack,
                       term := some tc })
        | _ =>
          .ok (.nil, { rs := rs1,
                       stack := ⟨[], tc, .klist, none⟩ :: st.stack,
                       term := some tc })
      | (t, _, _) =>
        match t with
        | .boolean =>
          if c = 't' then
            let (chars, rs2) := readN rs1 4
            if chars.take 3 ≠ ['r', 'u', 'e'] then
              .error (.expectTrue ⟨chars.take 3⟩ rs2.line rs2.col)
            else finishToken { st with rs := rs2 } (.bool true) chars.getLast? true
          else
            let (chars, rs2) := readN rs1 5
            if chars.take 4 ≠ ['a', 'l', 's', 'e'] then
              .error (.expectFalse ⟨chars.take 3⟩ rs2.line rs2.col)
            else finishToken { st with rs := rs2 } (.bool false) chars.getLast? true
        | .nilT =>
          let (chars, rs2) := readN rs1 3
          if chars.take 2 ≠ ['i', 'l'] then
            .error (.expectNil ⟨chars.take 2⟩ rs2.line rs2.col)
          else finishToken { st with rs := rs2 } .nil chars.getLast? true
        | .charT =>
          let (buf, e, consumed2) := tokLoopL st.term (some c) rs1.rem
          let rs2 := advChars rs1 consumed2
          finishToken { st with rs := rs2 } (.str ⟨buf.dropLast.filterMap id⟩) e true
        | .keyword =>
          let (buf, e, consumed2) := tokLoopL st.term (some c) rs1.rem
          let rs2 := advChars rs1 consumed2
          finishToken { st with rs := rs2 } (.str ⟨buf.dropLast.filterMap id⟩) e true
        | .number =>
          let (buf, e, consumed2) := numLoopL (some c) rs1.rem
          let rs2 := advChars rs1 consumed2
          match number ⟨buf⟩ with
          | .error er => .error er
          | .ok v =>
            let rs3 :=
              if (match e with
                  | some ec => collOpenChars.contains ec
                  | none => false) then seekBack rs2 1
              else rs2
            finishToken { st with rs := rs3 } v e true
        | .stringT =>
          match strScanStart rs1.rem with
          | none => .error .hang
          | some (buf, _) =>
            let rs2 := advChars rs1 (buf ++ ['"'])
            match decodeEscapes noLookup ⟨buf⟩ with
            | .error er => .error er
            | .ok v => finishToken { st with rs := rs2 } (.str v) (some '"') true
        | .datetimeT =>
          let (_, rs2) := readN rs1 4
          match readToken fuel { st with rs := rs2 } with
          | .error er => .error er
          | .ok (sv, st2) =>
            match sv with
            | .str s =>
              let st3 :=
                match st2.stack with
                | [] => st2
                | g :: grest => { st2 with stack := { g with scope := g.scope.dropLast } :: grest }
              finishToken st3 (.datetime s) (some '"') true
            | _ => .error .strExpected
        | .uuidT =>
          let (_, rs2) := readN rs1 4
          match readToken fuel { st with rs := rs2 } with
          | .error er => .error er
          | .ok (sv, st2) =>
            match sv with
            | .str s =>
              let st3 :=
                match st2.stack with
                | [] => st2
                | g :: grest => { st2 with stack := { g with scope := g.scope.dropLast } :: grest }
              finishToken st3 (.uuid s) (some '"') true
            | _ => .error .strExpected
        | _ =>
          if c ∉ collCloseChars then
            .error (.unexpectedChar c rs1.line rs1.col)
          else finishToken { st with rs := rs1 } .nil (some c) false

/-- The `decode` loop: read tokens until the frame stack is empty. -/
def decodeLoop : Nat → DState → Except DErr Value
  | 0, _ => .error .fuelOut
  | f + 1, st =>
    match readToken (st.rs.data.length + 1) st with
    | .error e => .error e
    | .ok (v, st2) => if st2.stack.isEmpty then .ok v else decodeLoop f st2

/-- `loads`: decode one root value from a string.  Every token consumes at
least one character, so `length + 1` loop fuel is never exhausted. -/
def decodeText (s : String) : Except DErr Value :=
  decodeLoop (s.data.length + 1) ⟨⟨s.data, 0, 1, 1⟩, [], none⟩

/-! ### Encoder (`CljEncoder`)

CPython object identity (`id`) matters to the encoder's circular-reference
check, so encoder-side values live in a heap: collections are `HObj`s named
by index, and a value is a scalar or a reference.  The per-call `circular`
dictionary becomes a visited list of indices threaded through the walk
(entries are never removed, as in the source).  The output stream is a
string; `_seek_back(fd, 1)` before a closing bracket overwrites the
trailing separator, i.e. drops the last character. -/

inductive EErr where
  | circular
  | badRef
  | fuelOut
deriving Repr, DecidableEq

/-- Encoder-side scalar or reference.  `vdatetime`'s flag records whether
the value carries an offset (`tzinfo`); the external `pyrfc3339.generate`
is abstracted as returning the canonical text (a naive value is first
given UTC, which the canonical-text abstraction does not distinguish).
`vother` is any unrecognized kind, encoded via its `str()` text. -/
inductive HVal where
  | vnil
  | vbool (b : Bool)
  | vint (n : Int)
  | vfloat (tok : String)
  | vdec (tok : String)
  | vstr (s : String)
  | vdatetime (canon : String) (aware : Bool)
  | vuuid (canon : String)
  | vother (s : String)
  | ref (i : Nat)

/-- A heap collection object: `dict`, `list`/`tuple`, or `set`. -/
inductive HObj where
  | olist (xs : List HVal)
  | odict (kvs : List (HVal × HVal))
  | oset (xs : List HVal)

/-- The scalar branches of `__do_encode`. -/
def scalarText : HVal → String
  | .vnil => "nil"
  | .vbool true => "true"
  | .vbool false => "false"
  | .vint n => pyIntStr n
  | .vfloat t => t
  | .vdec t => t ++ "M"
  | .vstr s => pyEncStr s
  | .vdatetime c _ => "#inst \"" ++ c ++ "\""
  | .vuuid c => "#uuid \"" ++ c ++ "\""
  | .vother s => pyEncStr s
  | .ref _ => ""

/-- Drop the last character: the effect of `_seek_back(fd, 1)` followed by
writing the closing bracket. -/
def dropLastStr (s : String) : String := ⟨s.data.dropLast⟩

/-- Sequence members under a given element encoder, each member followed
by a single space, the visited set threaded left to right. -/
def encSeqWith (enc : List Nat → HVal → Except EErr (String × List Nat)) : List Nat → List HVal → Except EErr (String × List Nat)
  | vis, [] => .ok ("", vis)
  | vis, x :: xs => do
    let (s1, v1) ← enc vis x
    let (s2, v2) ← encSeqWith enc v1 xs
    .ok (s1 ++ " " ++ s2, v2)

/-- Dict entries under a given element encoder: key, space, value, space. -/
def encPairsWith (enc : List Nat → HVal → Except EErr (String × List Nat)) : List Nat → List (HVal × HVal) → Except EErr (String × List Nat)
  | vis, [] => .ok ("", vis)
  | vis, (k, v) :: kvs => do
    let (s1, v1) ← enc vis k
    let (s2, v2) ← enc v1 v
    let (s3, v3) ← encPairsWith enc v2 kvs
    .ok (s1 ++ " " ++ s2 ++ " " ++ s3, v3)

/-- `__do_encode`: scalars write their literal text; a reference is first
checked against (then added to) the visited set, and its object's members
are encoded separated by single spaces with the trailing separator
trimmed.  Fuel decreases only at a descent into an object; `encodeTop`'s
choice of fuel can never run out, because the strictly growing visited set
would trip the circular check first. -/
def doEncode (heap : List HObj) : Nat → List Nat → HVal → Except EErr (String × List Nat)
  | fuel, vis, .ref i =>
    if vis.contains i then .error .circular
    else
      match heap.get? i with
      | none => .error .badRef
      | some obj =>
        match fuel with
        | 0 => .error .fuelOut
        | f + 1 =>
          let vis1 := i :: vis
          match obj with
          | .olist xs =>
            if xs.isEmpty then .ok ("[]", vis1)
            else do
              let (s, v2) ← encSeqWith (doEncode heap f) vis1 xs
              .ok ("[" ++ dropLastStr s ++ "]", v2)
          | .oset xs =>
            if xs.isEmpty then .ok ("#\x7b\x7d", vis1)
            else do
              let (s, v2) ← encSeqWith (doEncode heap f) vis1 xs
              .ok ("#\x7b" ++ dropLastStr s ++ "\x7d", v2)
          | .odict kvs =>
            if kvs.isEmpty then .ok ("\x7b\x7d", vis1)
            else do
              let (s, v2) ← encPairsWith (doEncode heap f) vis1 kvs
              .ok ("\x7b" ++ dropLastStr s ++ "\x7d", v2)
  | _, vis, v => .ok (scalarText v, vis)

/-- `dumps`: one top-level encode call, with a fresh (empty) visited set —
`CljEncoder.__init__` creates `self.circular` anew for every call. -/
def encodeTop (heap : List HObj) (v : HVal) : Except EErr String :=
  (·.1) <$> doEncode heap (heap.length + 1) [] v

/-- Is this value a Python string? -/
def Value.isStr : Value → Bool
  | .str _ => true
  | _ => false

/-- `decode(encode(v)) == v` at one scalar: a successful top-level encode
whose text decodes back to the given value. -/
def roundTrips (v : HVal) (w : Value) : Prop :=
  ∃ text, encodeTop [] v = .ok text ∧ decodeText text = .ok w

/-! ## Helper lemmas -/

/-- An odd-length member list always makes the pair-folding step raise:
the trailing singleton raises `IndexError`, unless an earlier unhashable
key raises `TypeError` first. -/
theorem foldPairsAux_odd_error (ns : Option String) :
    ∀ (scope : List Value) (acc : List (Value × Value)),
      scope.length % 2 = 1 → ∃ e, foldPairsAux ns acc scope = .error e := by
  have key : ∀ (n : Nat) (scope : List Value) (acc : List (Value × Value)),
      scope.length ≤ n → scope.length % 2 = 1 →
      ∃ e, foldPairsAux ns acc scope = .error e := by
    intro n
    induction n with
    | zero =>
      intro scope acc hle hodd
      rcases scope with _ | ⟨x, xs⟩
      · simp at hodd
      · simp at hle
    | succ n ih =>
      intro scope acc hle hodd
      rcases scope with _ | ⟨k, _ | ⟨v, rest⟩⟩
      · simp at hodd
      · exact ⟨.indexErr, rfl⟩
      · by_cases h : pyHashable (mkKey ns k)
        · have hr := ih rest (dictput acc (mkKey ns k) v)
            (by simp at hle ⊢; omega) (by simp at hodd ⊢; omega)

          simpa [foldPairsAux, h] using hr
        · exact ⟨.typeErr, by simp [foldPairsAux, h]⟩
  exact fun scope acc h => key scope.length scope acc le_rfl h

/-- Scanning text that contains no backslash is the identity: no regex
alternative can begin, so every character passes through verbatim. -/
theorem escScanF_no_bs (lookup : String → Option Char) :
    ∀ (l : List Char) (f : Nat), l.length < f → '\\' ∉ l →
      escScanF lookup f l = .ok l := by
  intro l
  induction l with
  | nil =>
    intro f hf _
    rcases f with _ | g
    · omega
    · rfl
  | cons c rest ih =>
    intro f hf hmem
    rcases f with _ | g
    · omega
    · simp only [List.mem_cons, not_or] at hmem
      have hc : ¬ c = '\\' := fun h => hmem.1 h.symm
      simp only [escScanF, if_neg hc]
      rw [ih g (by simp at hf ⊢; omega) hmem.2]
      rfl

/-- Keys already all strings stay all strings under a dict assignment with
a string key. -/
theorem dictput_keys_isStr :
    ∀ (es : List (Value × Value)) (k v : Value),
      (∀ p ∈ es, p.1.isStr = true) → k.isStr = true →
      ∀ p ∈ dictput es k v, p.1.isStr = true := by
  intro es
  induction es with
  | nil =>
    intro k v _ hk p hp
    simp only [dictput, List.mem_singleton] at hp
    subst hp
    exact hk
  | cons kv rest ih =>
    intro k v hall hk p hp
    obtain ⟨k0, v0⟩ := kv
    simp only [dictput] at hp
    split at hp
    · rcases List.mem_cons.mp hp with h | h
      · subst h
        exact hall (k0, v0) (List.mem_cons_self _ _)
      · exact hall p (List.mem_cons_of_mem _ h)
    · rcases List.mem_cons.mp hp with h | h
      · subst h
        exact hall (k0, v0) (List.mem_cons_self _ _)
      · exact ih k v (fun q hq => hall q (List.mem_cons_of_mem _ hq)) hk p h

/-- Pair folding under a nonempty namespace only ever inserts string keys,
so every key of the resulting mapping is a string. -/
theorem foldPairs_ns_keys (n : String) (hn : n ≠ "") :
    ∀ (scope : List Value) (acc res : List (Value × Value)),
      (∀ p ∈ acc, p.1.isStr = true) →
      foldPairsAux (some n) acc scope = .ok res →
      ∀ p ∈ res, p.1.isStr = true := by
  have key : ∀ (m : Nat) (scope : List Value) (acc res : List (Value × Value)),
      scope.length ≤ m →
      (∀ p ∈ acc, p.1.isStr = true) →
      foldPairsAux (some n) acc scope = .ok res →
      ∀ p ∈ res, p.1.isStr = true := by
    intro m
    induction m with
    | zero =>
      intro scope acc res hle hacc heq
      rcases scope with _ | ⟨x, xs⟩
      · simp only [foldPairsAux, Except.ok.injEq] at heq
        subst heq
        exact hacc
      · simp at hle
    | succ m ih =>
      intro scope acc res hle hacc heq
      rcases scope with _ | ⟨k, _ | ⟨v, rest⟩⟩
      · simp only [foldPairsAux, Except.ok.injEq] at heq
        subst heq
        exact hacc
      · exact Except.noConfusion heq
      · have hkey : (mkKey (some n) k).isStr = true := by
          simp [mkKey, hn, Value.isStr]
        have hhash : pyHashable (mkKey (some n) k) = true := by
          simp only [mkKey, if_neg hn]
          rfl
        simp only [foldPairsAux, hhash, if_pos] at heq
        exact ih rest (dictput acc (mkKey (some n) k) v) res
          (by simp at hle ⊢; omega)
          (dictput_keys_isStr acc (mkKey (some n) k) v hacc hkey)
          heq
  exact fun scope acc res hacc heq => key scope.length scope acc res le_rfl hacc heq

/-! ### Integer and decimal round-trip machinery -/

theorem digitVal_digitChar (d : Nat) (h : d < 10) : digitVal (digitChar d) = d := by
  interval_cases d <;> rfl

theorem digitChar_isDigit (d : Nat) : (digitChar d).isDigit = true := by
  unfold digitChar
  split <;> rfl

theorem natParseAux_append (l1 l2 : List Char) :
    ∀ acc, natParseAux acc (l1 ++ l2) = natParseAux (natParseAux acc l1) l2 := by
  induction l1 with
  | nil => intro acc; rfl
  | cons c cs ih =>
    intro acc
    show natParseAux (acc * 10 + digitVal c) (cs ++ l2)
        = natParseAux (natParseAux (acc * 10 + digitVal c) cs) l2
    exact ih _

theorem natStrAux_ne_nil (f n : Nat) (hf : 0 < f) : natStrAux f n ≠ [] := by
  rcases f with _ | g
  · omega
  · rw [natStrAux]
    split
    · simp
    · simp

theorem natStrAux_all_digit : ∀ (f n : Nat), ∀ c ∈ natStrAux f n, c.isDigit = true := by
  intro f
  induction f with
  | zero => intro n c hc; simp [natStrAux] at hc
  | succ g ih =>
    intro n c hc
    rw [natStrAux] at hc
    split at hc
    · simp only [List.mem_singleton] at hc
      subst hc
      exact digitChar_isDigit n
    · rcases List.mem_append.mp hc with h | h
      · exact ih (n / 10) c h
      · simp only [List.mem_singleton] at h
        subst h
        exact digitChar_isDigit _

theorem natParse_natStr : ∀ (f n : Nat), n < f → natParseAux 0 (natStrAux f n) = n := by
  intro f
  induction f with
  | zero => intro n h; omega
  | succ g ih =>
    intro n h
    rw [natStrAux]
    split
    · next hlt =>
        show 0 * 10 + digitVal (digitChar n) = n
        rw [digitVal_digitChar n hlt]
        omega
    · next hge =>
      rw [natParseAux_append]
      have hdiv : n / 10 < g := by
        have := Nat.div_lt_self (by omega : 0 < n) (by omega : 1 < 10)
        omega
      rw [ih (n / 10) hdiv]
      show n / 10 * 10 + digitVal (digitChar (n % 10)) = n
      rw [digitVal_digitChar (n % 10) (Nat.mod_lt _ (by omega))]
      omega

theorem isDigit_ne (c x : Char) (h : c.isDigit = true) (hx : x.isDigit = false) : c ≠ x := by
  intro he
  rw [he, hx] at h
  exact Bool.noConfusion h

theorem pyIntParse_pyIntStr (n : Int) : pyIntParse? (pyIntStr n) = some n := by
  by_cases hn : n < 0
  · rw [pyIntStr, if_pos hn]
    have hdata : ("-" ++ pyNatStr n.natAbs).data
        = '-' :: natStrAux (n.natAbs + 1) n.natAbs := by
      rw [String.data_append]
      rfl
    simp only [pyIntParse?, hdata, if_pos]
    rw [if_pos ⟨natStrAux_ne_nil _ _ (by omega),
        List.all_eq_true.mpr (fun c hc => natStrAux_all_digit _ _ c hc)⟩]
    rw [natParse_natStr _ _ (by omega)]
    rw [Option.some_inj]
    omega
  · rw [pyIntStr, if_neg hn]
    have hdata : (pyNatStr n.toNat).data = natStrAux (n.toNat + 1) n.toNat := rfl
    rcases hcons : natStrAux (n.toNat + 1) n.toNat with _ | ⟨c, cs⟩
    · exact absurd hcons (natStrAux_ne_nil _ _ (by omega))
    · have hcd : c.isDigit = true :=
        natStrAux_all_digit _ _ c (by rw [hcons]; exact List.mem_cons_self _ _)
      simp only [pyIntParse?, hdata, hcons]
      rw [if_neg (isDigit_ne c '-' hcd (by decide)),
        if_neg (isDigit_ne c '+' hcd (by decide))]
      rw [if_pos (by
        rw [← hcons]
        exact List.all_eq_true.mpr (fun x hx => natStrAux_all_digit _ _ x hx))]
      rw [← hcons, natParse_natStr _ _ (by omega)]
      rw [Option.some_inj]
      omega

theorem pyIntStr_getLast_digit (n : Int) :
    ∀ x, (pyIntStr n).data.getLast? = some x → x.isDigit = true := by
  intro x hx
  by_cases hn : n < 0
  · rw [pyIntStr, if_pos hn, String.data_append] at hx
    rw [List.getLast?_append_of_ne_nil "-".data
      (show (pyNatStr n.natAbs).data ≠ [] from natStrAux_ne_nil _ _ (by omega))] at hx
    exact natStrAux_all_digit _ _ x (List.mem_of_mem_getLast? hx)
  · rw [pyIntStr, if_neg hn] at hx
    exact natStrAux_all_digit _ _ x (List.mem_of_mem_getLast? hx)

theorem number_pyIntStr (n : Int) : number (pyIntStr n) = .ok (.int n) := by
  rw [number]
  rw [if_neg (by
    intro hM
    have := pyIntStr_getLast_digit n 'M' hM
    exact absurd this (by decide))]
  rw [pyIntParse_pyIntStr]

theorem isDigit_isNumChar (c : Char) (h : c.isDigit = true) : isNumChar c = true := by
  simp [isNumChar, h]

theorem isDigit_not_stop (c : Char) (h : c.isDigit = true) : c ∉ stopChars := by
  intro hc
  fin_cases hc <;> simp_all

theorem numLoopL_all : ∀ (l : List Char) (c : Char),
    isNumChar c = true → (∀ x ∈ l, isNumChar x = true) →
    numLoopL (some c) l = (c :: l, none, l) := by
  intro l
  induction l with
  | nil => intro c hc _; simp [numLoopL, hc]
  | cons d rest ih =>
    intro c hc hall
    rw [numLoopL, if_pos hc]
    rw [ih d (hall d (List.mem_cons_self _ _))
      (fun x hx => hall x (List.mem_cons_of_mem _ hx))]

/-- A run of single-character reads of one non-newline character only
advances the position. -/
theorem advChars_single (s : RS) (c : Char) (hc : c ≠ '\n') :
    advChars s [c] = { s with pos := s.pos + 1 } := by
  simp [advChars, List.count_cons, beq_iff_eq, hc, Ne.symm hc]

/-- Decoding a whole input that is one numeric token (first character a
digit or `-`, all characters in the numeric class) is exactly `number`
applied to it. -/
theorem decode_numtok (s : String) (c : Char) (l : List Char)
    (hd : s.data = c :: l)
    (hc : c.isDigit ∨ c = '-')
    (hall : ∀ x ∈ s.data, isNumChar x = true) :
    decodeText s = number s := by
  have hnum : isNumChar c = true := hall c (by rw [hd]; exact List.mem_cons_self _ _)
  have hnotstop : ¬ c ∈ stopChars := by
    rcases hc with h | h
    · exact isDigit_not_stop c h
    · subst h; decide
  have hnl : c ≠ '\n' := by
    rcases hc with h | h
    · exact isDigit_ne c '\n' h (by decide)
    · subst h; decide
  have hskip : skipStopsL (c :: l) = (some c, [c]) := by
    rw [skipStopsL, if_neg hnotstop]
  have hgt : ∀ s, getTypeD c s = (.number, false, none) := by
    intro s
    rw [getTypeD, if_pos hc]
  have hloop : numLoopL (some c) l = (c :: l, none, l) :=
    numLoopL_all l c hnum (fun x hx => hall x (by rw [hd]; exact List.mem_cons_of_mem _ hx))
  have hretr : (⟨c :: l⟩ : String) = s := by
    rw [← hd]
  simp only [decodeText, hd, List.length_cons]
  rw [decodeLoop]
  simp only [List.length_cons]
  rw [readToken]
  simp only [RS.rem, List.drop_zero, hskip, advChars_single _ c hnl, hgt]
  simp only [RS.rem, List.drop_succ_cons, List.drop_zero, hloop, hretr]
  cases hv : number s with
  | error er => simp
  | ok v =>
    simp only [finishToken, closesQ]
    simp

/-! ### Decimal token facts -/

theorem takeWhile_append_dropLen (p : Char → Bool) :
    ∀ l : List Char, l.takeWhile p ++ l.drop (l.takeWhile p).length = l := by
  intro l
  induction l with
  | nil => rfl
  | cons x xs ih =>
    by_cases h : p x
    · simp only [List.takeWhile_cons, h, if_true, List.length_cons, List.drop_succ_cons,
        List.cons_append, List.cons.injEq, true_and]
      exact ih
    · simp [List.takeWhile_cons, h]

/-- Structure of a well-formed fixed-notation token body: every character
is in the numeric class and the first is a digit. -/
theorem isDecCore_shape (l : List Char) (h : isDecCore l = true) :
    (∀ x ∈ l, isNumChar x = true) ∧ ∃ hd tl, l = hd :: tl ∧ hd.isDigit = true := by
  rw [isDecCore, Bool.and_eq_true] at h
  obtain ⟨hint, hfrac⟩ := h
  have hane : l.takeWhile (·.isDigit) ≠ [] := by
    intro hnil
    rw [decIntOk, hnil] at hint
    simp at hint
  rcases hl : l with _ | ⟨hd, tl⟩
  · subst hl
    simp at hane
  · subst hl
    have hhd : hd.isDigit = true := by
      by_contra hnd
      rw [List.takeWhile_cons] at hane
      simp only [Bool.not_eq_true] at hnd
      rw [if_neg (by simp [hnd])] at hane
      exact hane rfl
    refine ⟨?_, hd, tl, rfl, hhd⟩
    intro x hx
    rw [← takeWhile_append_dropLen (·.isDigit) (hd :: tl)] at hx
    rcases List.mem_append.mp hx with hx | hx
    · exact isDigit_isNumChar x (List.mem_takeWhile_imp hx)
    · cases hdr : (hd :: tl).drop (((hd :: tl).takeWhile (·.isDigit)).length) with
      | nil => rw [hdr] at hx; simp at hx
      | cons d r =>
        rw [hdr] at hx hfrac
        rw [decFracOk, Bool.and_eq_true] at hfrac
        obtain ⟨hdot, hud⟩ := hfrac
        have hdig : ∀ y ∈ r, y.isDigit = true := by
          intro y hy
          rw [isUDigits, Bool.and_eq_true] at hud
          have := List.all_eq_true.mp hud.2 y hy
          simpa using this
        rcases List.mem_cons.mp hx with hx0 | hx1
        · have hd2 : d = '.' := by simpa using hdot
          rw [hx0, hd2]
          decide
        · exact isDigit_isNumChar x (hdig x hx1)

/-- Structure of a well-formed decimal token: nonempty, every character in
the numeric class, first character a digit or minus. -/
theorem isDecTok_shape (t : String) (h : isDecTok t = true) :
    (∃ c l, t.data = c :: l ∧ (c.isDigit ∨ c = '-')) ∧
    (∀ x ∈ t.data, isNumChar x = true) := by
  rcases ht : t.data with _ | ⟨c, cs⟩
  · rw [isDecTok, ht] at h
    exact Bool.noConfusion h
  · simp only [isDecTok, ht] at h
    by_cases hc : c = '-'
    · rw [if_pos hc] at h
      obtain ⟨hall, _⟩ := isDecCore_shape cs h
      refine ⟨⟨c, cs, rfl, Or.inr hc⟩, ?_⟩
      intro x hx
      rcases List.mem_cons.mp hx with hx | hx
      · subst hx
        subst hc
        decide
      · exact hall x hx
    · rw [if_neg hc] at h
      obtain ⟨hall, hd, tl, heq, hdig⟩ := isDecCore_shape (c :: cs) h
      have hcd : c.isDigit = true := by
        injection heq with h1 _
        rw [h1]
        exact hdig
      exact ⟨⟨c, cs, rfl, Or.inl hcd⟩, fun x hx => hall x hx⟩

theorem number_decTok (t : String) (h : isDecTok t = true) :
    number (t ++ "M") = .ok (.dec t) := by
  have hdata : (t ++ "M").data = t.data ++ ['M'] := by
    rw [String.data_append]
  have hdrop : (t ++ "M").data.dropLast = t.data := by
    rw [hdata]
    exact List.dropLast_concat
  rw [number]
  simp only [hdata, List.getLast?_concat, List.dropLast_concat, eq_self_iff_true, if_true]
  show (if isDecTok t = true then Except.ok (Value.dec t) else Except.error DErr.numErr)
      = Except.ok (Value.dec t)
  rw [if_pos h]

/-- Decoding the canonical text of an integer yields it back. -/
theorem decode_pyIntStr (n : Int) : decodeText (pyIntStr n) = .ok (.int n) := by
  have hall : ∀ x ∈ (pyIntStr n).data, isNumChar x = true := by
    intro x hx
    by_cases hn : n < 0
    · rw [pyIntStr, if_pos hn, String.data_append] at hx
      rcases List.mem_append.mp hx with h | h
      · have : x = '-' := by simpa using h
        subst this
        decide
      · exact isDigit_isNumChar x (natStrAux_all_digit _ _ x h)
    · rw [pyIntStr, if_neg hn] at hx
      exact isDigit_isNumChar x (natStrAux_all_digit _ _ x hx)
  by_cases hn : n < 0
  · have hdata : (pyIntStr n).data = '-' :: natStrAux (n.natAbs + 1) n.natAbs := by
      rw [pyIntStr, if_pos hn, String.data_append]
      rfl
    rw [decode_numtok (pyIntStr n) '-' _ hdata (Or.inr rfl) hall, number_pyIntStr]
  · rcases hcons : natStrAux (n.toNat + 1) n.toNat with _ | ⟨c, cs⟩
    · exact absurd hcons (natStrAux_ne_nil _ _ (by omega))
    · have hdata : (pyIntStr n).data = c :: cs := by
        rw [pyIntStr, if_neg hn]
        exact hcons
      have hcd : c.isDigit = true :=
        natStrAux_all_digit _ _ c (by rw [hcons]; exact List.mem_cons_self _ _)
      rw [decode_numtok (pyIntStr n) c cs hdata (Or.inl hcd) hall, number_pyIntStr]

/-- Decoding the canonical text of a decimal (token plus `M`) yields it
back. -/
theorem decode_decTok (t : String) (h : isDecTok t = true) :
    decodeText (t ++ "M") = .ok (.dec t) := by
  obtain ⟨⟨c, l, hd, hc⟩, hall⟩ := isDecTok_shape t h
  have hdata : (t ++ "M").data = c :: (l ++ ['M']) := by
    rw [String.data_append, hd]
    rfl
  have hallM : ∀ x ∈ (t ++ "M").data, isNumChar x = true := by
    intro x hx
    rw [String.data_append] at hx
    rcases List.mem_append.mp hx with h1 | h1
    · exact hall x h1
    · have : x = 'M' := by simpa using h1
      subst this
      decide
  rw [decode_numtok _ c _ hdata hc hallM, number_decTok t h]

/-! ### String round-trip machinery -/

theorem hexDigitL_ne_bs (d : Nat) : hexDigitL d ≠ '\\' := by
  unfold hexDigitL
  split <;> decide

theorem hexDigitL_ne_quote (d : Nat) : hexDigitL d ≠ '"' := by
  unfold hexDigitL
  split <;> decide

theorem hexDigitL_ne_nl (d : Nat) : hexDigitL d ≠ '\n' := by
  unfold hexDigitL
  split <;> decide

theorem hexVal_hexDigitL (d : Nat) (h : d < 16) : hexVal? (hexDigitL d) = some d := by
  interval_cases d <;> rfl

theorem hexFold_hex4 (n : Nat) (h : n < 65536) : hexFold? 0 (hex4 n) = some n := by
  have h1 : n / 4096 % 16 < 16 := Nat.mod_lt _ (by omega)
  have h2 : n / 256 % 16 < 16 := Nat.mod_lt _ (by omega)
  have h3 : n / 16 % 16 < 16 := Nat.mod_lt _ (by omega)
  have h4 : n % 16 < 16 := Nat.mod_lt _ (by omega)
  simp only [hex4, hexFold?, hexVal_hexDigitL _ h1, hexVal_hexDigitL _ h2,
    hexVal_hexDigitL _ h3, hexVal_hexDigitL _ h4]
  rw [Option.some_inj]
  omega

theorem escUnit_ne_nil (c : Char) : escUnit c ≠ [] := by
  unfold escUnit
  split_ifs <;> simp [hex4]

theorem escUnit_length_pos (c : Char) : 0 < (escUnit c).length :=
  List.length_pos.mpr (escUnit_ne_nil c)

theorem escBody_length_ge : ∀ l : List Char, l.length ≤ (escBody l).length := by
  intro l
  induction l with
  | nil => simp [escBody]
  | cons c l2 ih =>
    have h1 := escUnit_length_pos c
    have hb : escBody (c :: l2) = escUnit c ++ escBody l2 := by
      simp [escBody]
    rw [hb, List.length_append, List.length_cons]
    omega

/-- One scanner step over a character that is not a quote. -/
theorem strScanL_cons_ne (cp : Option Char) (x : Char) (hx : x ≠ '"') (tail : List Char) :
    strScanL cp (x :: tail) = (strScanL (some x) tail).map (fun p => (x :: p.1, p.2)) := by
  rw [strScanL, if_neg (by simp [hx])]

/-- One scanner step over a quote whose previous character was a
backslash: treated as escaped, the scan continues. -/
theorem strScanL_cons_escq (tail : List Char) :
    strScanL (some '\\') ('"' :: tail)
      = (strScanL (some '"') tail).map (fun p => ('"' :: p.1, p.2)) := by
  rw [strScanL, if_neg (by simp)]

/-- Scanning through a quote-free nonempty chunk accumulates it whole and
continues with the chunk's last character as the look-behind. -/
theorem strScanL_chain : ∀ (xs : List Char) (cp : Option Char) (tail : List Char),
    xs ≠ [] → (∀ x ∈ xs, x ≠ '"') →
    strScanL cp (xs ++ tail)
      = (strScanL xs.getLast? tail).map (fun p => (xs ++ p.1, p.2)) := by
  intro xs
  induction xs with
  | nil => intro cp tail h _; exact absurd rfl h
  | cons x rest ih =>
    intro cp tail _ hall
    rcases rest with _ | ⟨y, rest2⟩
    · rw [List.cons_append, List.nil_append,
        strScanL_cons_ne cp x (hall x (List.mem_cons_self _ _))]
      rfl
    · rw [List.cons_append, strScanL_cons_ne cp x (hall x (List.mem_cons_self _ _))]
      rw [ih (some x) tail (by simp) (fun z hz => hall z (List.mem_cons_of_mem _ hz))]
      rw [Option.map_map]
      rfl

/-- How the scanner consumes one encoded character unit: it never stops
inside the unit, and hands the unit's last character on as look-behind. -/
theorem strScanL_unit (c : Char) (hbmp : c.toNat ≤ 0xFFFF) (cp : Option Char) (tail : List Char) :
    strScanL cp (escUnit c ++ tail)
      = (strScanL (escUnit c).getLast? tail).map (fun p => (escUnit c ++ p.1, p.2)) := by
  by_cases hq : c = '"'
  · subst hq
    show strScanL cp (['\\', '"'] ++ tail)
      = (strScanL (['\\', '"'] : List Char).getLast? tail).map
          (fun p => (['\\', '"'] ++ p.1, p.2))
    rw [List.cons_append, List.cons_append, List.nil_append,
      strScanL_cons_ne cp '\\' (by decide), strScanL_cons_escq, Option.map_map]
    rfl
  · apply strScanL_chain (escUnit c) cp tail (escUnit_ne_nil c)
    intro x hx
    revert hx
    unfold escUnit
    split_ifs with h1 h2 h3 h4 h5 h6 h7
    · intro hx
      simp only [List.mem_cons, List.not_mem_nil, or_false] at hx
      rcases hx with rfl | rfl <;> decide
    · intro hx
      simp only [List.mem_cons, List.not_mem_nil, or_false] at hx
      rcases hx with rfl | rfl <;> decide
    · intro hx
      simp only [List.mem_cons, List.not_mem_nil, or_false] at hx
      rcases hx with rfl | rfl <;> decide
    · intro hx
      simp only [List.mem_cons, List.not_mem_nil, or_false] at hx
      rcases hx with rfl | rfl <;> decide
    · intro hx
      simp only [List.mem_cons, List.not_mem_nil, or_false] at hx
      rcases hx with rfl | rfl <;> decide
    · intro hx
      simp only [List.mem_cons, List.not_mem_nil, or_false] at hx
      rcases hx with rfl | rfl <;> decide
    · intro hx
      simp only [List.mem_singleton] at hx
      subst hx
      exact hq
    · intro hx
      simp only [List.mem_cons, hex4, List.not_mem_nil, or_false] at hx
      rcases hx with rfl | rfl | rfl | rfl | rfl | rfl
      · decide
      · decide
      · exact hexDigitL_ne_quote _
      · exact hexDigitL_ne_quote _
      · exact hexDigitL_ne_quote _
      · exact hexDigitL_ne_quote _

set_option maxRecDepth 4000 in
/-- The last character of an encoded unit is a backslash only when the
source character itself is one. -/
theorem escUnit_getLast_ne_bs (c : Char) (hc : c ≠ '\\') :
    (escUnit c).getLast? ≠ some '\\' := by
  unfold escUnit
  split_ifs with h1 h2 h3 h4 h5 h6 h7 h8 h9
  · exact absurd h1 hc
  · decide
  · decide
  · decide
  · decide
  · decide
  · decide
  · exact fun hbad => hc (Option.some.inj hbad)
  · exact fun hbad => hexDigitL_ne_bs _ (Option.some.inj hbad)
  · intro hbad
    rw [List.getLast?_append_of_ne_nil _ (by simp [hex4])] at hbad
    simp only [hex4, List.getLast?_cons_cons, List.getLast?_singleton,
      Option.some.injEq] at hbad
    exact hexDigitL_ne_bs _ hbad

/-- The scanner consumes exactly the escaped body of a string whose last
character is not a backslash, stopping at the closing quote. -/
theorem strScanL_escBody : ∀ (l : List Char) (cp : Option Char),
    (∀ c ∈ l, c.toNat ≤ 0xFFFF) →
    (∀ x, l.getLast? = some x → x ≠ '\\') →
    (l = [] → cp ≠ some '\\') →
    strScanL cp (escBody l ++ ['"']) = some (escBody l, []) := by
  intro l
  induction l with
  | nil =>
    intro cp _ _ hcp
    show strScanL cp ['"'] = some ([], [])
    rw [strScanL, if_pos ⟨rfl, hcp rfl⟩]
  | cons c l2 ih =>
    intro cp hbmp hlast hcp
    have hb : escBody (c :: l2) ++ ['"'] = escUnit c ++ (escBody l2 ++ ['"']) := by
      simp [escBody]
    rw [hb, strScanL_unit c (hbmp c (List.mem_cons_self _ _))]
    rw [ih (escUnit c).getLast? (fun x hx => hbmp x (List.mem_cons_of_mem _ hx))
      (by
        intro x hx
        rcases l2 with _ | ⟨y, l3⟩
        · exact absurd hx (by simp)
        · exact hlast x (by rw [List.getLast?_cons_cons]; exact hx))
      (by
        intro h2
        have hc : c ≠ '\\' := hlast c (by rw [h2]; rfl)
        intro hbad
        exact escUnit_getLast_ne_bs c hc hbad)]
    simp [escBody]

/-- The resolver consumes one encoded unit per step, decoding it back to
the character it encodes. -/
theorem escScanF_unit (lookup : String → Option Char) (c : Char) (hbmp : c.toNat ≤ 0xFFFF)
    (f : Nat) (rest : List Char) :
    escScanF lookup (f + 1) (escUnit c ++ rest) = (c :: ·) <$> escScanF lookup f rest := by
  unfold escUnit
  split_ifs with h1 h2 h3 h4 h5 h6 h7 h8
  · subst h1; rfl
  · subst h2; rfl
  · rw [show escScanF lookup (f + 1) (['\\', 'b'] ++ rest)
        = ((Char.ofNat 8 :: ·) <$> escScanF lookup f rest) from rfl]
    rw [show Char.ofNat 8 = c from by rw [← h3, Char.ofNat_toNat]]
  · rw [show escScanF lookup (f + 1) (['\\', 't'] ++ rest)
        = ((Char.ofNat 9 :: ·) <$> escScanF lookup f rest) from rfl]
    rw [show Char.ofNat 9 = c from by rw [← h4, Char.ofNat_toNat]]
  · rw [show escScanF lookup (f + 1) (['\\', 'n'] ++ rest)
        = ((Char.ofNat 10 :: ·) <$> escScanF lookup f rest) from rfl]
    rw [show Char.ofNat 10 = c from by rw [← h5, Char.ofNat_toNat]]
  · rw [show escScanF lookup (f + 1) (['\\', 'f'] ++ rest)
        = ((Char.ofNat 12 :: ·) <$> escScanF lookup f rest) from rfl]
    rw [show Char.ofNat 12 = c from by rw [← h6, Char.ofNat_toNat]]
  · rw [show escScanF lookup (f + 1) (['\\', 'r'] ++ rest)
        = ((Char.ofNat 13 :: ·) <$> escScanF lookup f rest) from rfl]
    rw [show Char.ofNat 13 = c from by rw [← h7, Char.ofNat_toNat]]
  · show escScanF lookup (f + 1) (c :: rest) = (c :: ·) <$> escScanF lookup f rest
    rw [escScanF]
    rw [if_neg h1]
  · have htake : (hex4 c.toNat ++ rest).take 4 = hex4 c.toNat := by
      rw [show (4 : Nat) = (hex4 c.toNat).length from rfl]
      exact List.take_left _ _
    have hdrop : (hex4 c.toNat ++ rest).drop 4 = rest := by
      rw [show (4 : Nat) = (hex4 c.toNat).length from rfl]
      exact List.drop_left _ _
    have hall4 : (hex4 c.toNat).all (fun x => decide (x ≠ '\n')) = true := by
      apply List.all_eq_true.mpr
      intro x hx
      simp only [hex4, List.mem_cons, List.not_mem_nil, or_false] at hx
      rcases hx with rfl | rfl | rfl | rfl <;> exact decide_eq_true (hexDigitL_ne_nl _)
    show escAfterBs lookup (escScanF lookup f) ('u' :: (hex4 c.toNat ++ rest))
        = (c :: ·) <$> escScanF lookup f rest
    have hlen : (hex4 c.toNat).length = 4 := rfl
    simp only [escAfterBs, htake, hdrop, hall4, hlen, hexFold_hex4 c.toNat (by omega),
      Char.ofNat_toNat]
    simp

/-- The resolver maps the escaped body of a BMP string back to the string
itself (fuel at least one per character suffices). -/
theorem escScanF_escBody (lookup : String → Option Char) :
    ∀ (l : List Char) (f : Nat), l.length < f → (∀ c ∈ l, c.toNat ≤ 0xFFFF) →
      escScanF lookup f (escBody l) = .ok l := by
  intro l
  induction l with
  | nil =>
    intro f hf _
    rcases f with _ | g
    · omega
    · rfl
  | cons c l2 ih =>
    intro f hf hbmp
    rcases f with _ | g
    · omega
    · have hb : escBody (c :: l2) = escUnit c ++ escBody l2 := by
        simp [escBody]
      rw [hb, escScanF_unit lookup c (hbmp c (List.mem_cons_self _ _))]
      rw [ih g (by simp at hf ⊢; omega) (fun x hx => hbmp x (List.mem_cons_of_mem _ hx))]
      rfl

/-- Decoding the ASCII-safe-escaped encoding of a BMP string that does not
end in a backslash yields the string back. -/
theorem decode_pyEncStr (s : String)
    (hbmp : ∀ c ∈ s.data, c.toNat ≤ 0xFFFF)
    (hlast : ∀ x, s.data.getLast? = some x → x ≠ '\\') :
    decodeText (pyEncStr s) = .ok (.str s) := by
  have hdata : (pyEncStr s).data = '"' :: (escBody s.data ++ ['"']) := rfl
  have hscan : strScanStart (escBody s.data ++ ['"']) = some (escBody s.data, []) := by
    rcases hsd : s.data with _ | ⟨c0, l2⟩
    · show strScanStart ['"'] = some ([], [])
      rfl
    · obtain ⟨u0, urest, hu⟩ : ∃ u0 urest, escUnit c0 = u0 :: urest := by
        rcases hE : escUnit c0 with _ | ⟨a, b⟩
        · exact absurd hE (escUnit_ne_nil c0)
        · exact ⟨a, b, rfl⟩
      have hbody : escBody (c0 :: l2) ++ ['"'] = u0 :: (urest ++ (escBody l2 ++ ['"'])) := by
        simp [escBody, hu]
      rw [hbody]
      show strScanL (some u0) (u0 :: (urest ++ (escBody l2 ++ ['"'])))
          = some (escBody (c0 :: l2), [])
      rw [← hbody]
      exact strScanL_escBody (c0 :: l2) (some u0)
        (by rw [← hsd]; exact hbmp)
        (by rw [← hsd]; exact hlast)
        (by simp)
  have hresolve : decodeEscapes noLookup ⟨escBody s.data⟩ = .ok s := by
    rw [decodeEscapes]
    rw [escScanF_escBody noLookup s.data _
      (by
        have h1 : ((⟨escBody s.data⟩ : String)).data.length = (escBody s.data).length := rfl
        have h2 := escBody_length_ge s.data
        omega) hbmp]
    rfl
  simp only [decodeText, hdata, List.length_cons]
  rw [decodeLoop]
  simp only [List.length_cons]
  rw [readToken]
  have hskip : skipStopsL ('"' :: (escBody s.data ++ ['"'])) = (some '"', ['"']) := by
    rw [skipStopsL, if_neg (by decide)]
  simp only [RS.rem, List.drop_zero, hskip]
  rw [advChars_single _ '"' (by decide)]
  have hgt : getTypeD '"' ⟨'"' :: (escBody s.data ++ ['"']), 1, 1, 1⟩
      = (.stringT, false, none) := rfl
  rw [hgt]
  simp only [RS.rem, List.drop_succ_cons, List.drop_zero, hscan, hresolve]
  simp only [finishToken, closesQ]
  simp

/-- Reads of a newline-free character run advance the position only. -/
theorem advChars_no_nl (s : RS) (cs : List Char) (h : '\n' ∉ cs) :
    advChars s cs = { s with pos := s.pos + cs.length } := by
  simp [advChars, List.count_eq_zero.mpr h, h]

/-- Scanning a raw (quote- and backslash-free) body stops exactly at the
closing quote. -/
theorem strScanL_raw : ∀ (body : List Char) (cp : Option Char) (tail : List Char),
    '"' ∉ body → '\\' ∉ body → cp ≠ some '\\' →
    strScanL cp (body ++ '"' :: tail) = some (body, tail) := by
  intro body
  induction body with
  | nil =>
    intro cp tail _ _ hcp
    show strScanL cp ('"' :: tail) = some ([], tail)
    rw [strScanL, if_pos ⟨rfl, hcp⟩]
  | cons x xs ih =>
    intro cp tail hq hbs hcp
    simp only [List.mem_cons, not_or] at hq hbs
    rw [List.cons_append, strScanL_cons_ne cp x (fun h => hq.1 h.symm)]
    rw [ih (some x) tail hq.2 hbs.2 (by
      intro h
      exact hbs.1 (Option.some.inj h).symm)]
    rfl

/-- Entry point of the raw scan: the seed look-behind is the first body
character (or the closing quote for an empty body), never a backslash. -/
theorem strScanStart_raw (body tail : List Char) (hq : '"' ∉ body) (hbs : '\\' ∉ body) :
    strScanStart (body ++ '"' :: tail) = some (body, tail) := by
  rcases body with _ | ⟨x, xs⟩
  · show strScanL (some '"') ('"' :: tail) = some ([], tail)
    rw [strScanL, if_pos ⟨rfl, by decide⟩]
  · show strScanL (some x) ((x :: xs) ++ '"' :: tail) = some (x :: xs, tail)
    refine strScanL_raw (x :: xs) (some x) tail hq hbs ?_
    simp only [List.mem_cons, not_or] at hbs
    intro h
    exact hbs.1 (Option.some.inj h).symm

/-- The nested `__read_token` call a tagged literal makes at top level:
skips the separating space, reads the quoted raw payload, and returns it
as a string, consuming through the closing quote. -/
theorem readToken_nested_str (f : Nat) (d : List Char) (pos line col : Nat)
    (body : List Char)
    (hrem : (⟨d, pos, line, col⟩ : RS).rem = ' ' :: '"' :: (body ++ ['"']))
    (hq : '"' ∉ body) (hbs : '\\' ∉ body) (hnl : '\n' ∉ body) :
    readToken (f + 1) ⟨⟨d, pos, line, col⟩, [], none⟩ =
      .ok (.str ⟨body⟩, ⟨⟨d, pos + 2 + (body.length + 1), line, col⟩, [], none⟩) := by
  rw [readToken]
  have h1 : skipStopsL ('"' :: (body ++ ['"'])) = (some '"', ['"']) := by
    rw [skipStopsL, if_neg (by decide)]
  have hskip : skipStopsL (' ' :: '"' :: (body ++ ['"'])) = (some '"', [' ', '"']) := by
    rw [skipStopsL, if_pos (by decide), h1]
  have hadv : advChars ⟨d, pos, line, col⟩ [' ', '"'] = ⟨d, pos + 2, line, col⟩ := by
    rw [advChars_no_nl _ _ (by decide)]
    rfl
  have hrem2 : (⟨d, pos + 2, line, col⟩ : RS).rem = body ++ ['"'] := by
    show d.drop (pos + 2) = body ++ ['"']
    have hdd : d.drop (pos + 2) = (d.drop pos).drop 2 := by
      rw [List.drop_drop]
    rw [hdd]
    have : d.drop pos = ' ' :: '"' :: (body ++ ['"']) := hrem
    rw [this]
    rfl
  have hgt : getTypeD '"' ⟨d, pos + 2, line, col⟩ = (.stringT, false, none) := rfl
  have hscan : strScanStart (body ++ ['"']) = some (body, []) :=
    strScanStart_raw body [] hq hbs
  have hresolve : decodeEscapes noLookup ⟨body⟩ = .ok ⟨body⟩ := by
    rw [decodeEscapes]
    rw [escScanF_no_bs noLookup body _
      (by
        have hh : ((⟨body⟩ : String)).data.length = body.length := rfl
        omega) hbs]
    rfl
  have hadv2 : advChars ⟨d, pos + 2, line, col⟩ (body ++ ['"'])
      = ⟨d, pos + 2 + (body.length + 1), line, col⟩ := by
    rw [advChars_no_nl _ _ (by
      intro hmem
      rcases List.mem_append.mp hmem with h | h
      · exact hnl h
      · simp at h)]
    simp
  simp only [hrem, hskip, hadv, hgt, hrem2, hscan, hresolve, hadv2]
  simp only [finishToken, closesQ]
  simp

/-- Decoding `#inst "<canonical>"` yields the timestamp with that
canonical text (payload free of quotes, backslashes and newlines). -/
theorem decode_tag_inst (c : String) (hq : '"' ∉ c.data) (hbs : '\\' ∉ c.data)
    (hnl : '\n' ∉ c.data) :
    decodeText ("#inst \"" ++ c ++ "\"") = .ok (.datetime c) := by
  have hdata : ("#inst \"" ++ c ++ "\"").data
      = '#' :: 'i' :: 'n' :: 's' :: 't' :: ' ' :: '"' :: (c.data ++ ['"']) := by
    rw [String.data_append, String.data_append]
    rfl
  simp only [decodeText, hdata, List.length_cons]
  rw [decodeLoop]
  simp only [List.length_cons]
  rw [readToken]
  have hskip : skipStopsL
      ('#' :: 'i' :: 'n' :: 's' :: 't' :: ' ' :: '"' :: (c.data ++ ['"']))
      = (some '#', ['#']) := by
    rw [skipStopsL, if_neg (by decide)]
  simp only [RS.rem, List.drop_zero, hskip]
  rw [advChars_single _ '#' (by decide)]
  have hgt : getTypeD '#'
      ⟨'#' :: 'i' :: 'n' :: 's' :: 't' :: ' ' :: '"' :: (c.data ++ ['"']), 1, 1, 1⟩
      = (.datetimeT, false, none) := rfl
  rw [hgt]
  have hreadN : readN
      ⟨'#' :: 'i' :: 'n' :: 's' :: 't' :: ' ' :: '"' :: (c.data ++ ['"']), 1, 1, 1⟩ 4
      = (['i', 'n', 's', 't'],
         ⟨'#' :: 'i' :: 'n' :: 's' :: 't' :: ' ' :: '"' :: (c.data ++ ['"']), 5, 1, 5⟩) := rfl
  rw [hreadN]
  rw [readToken_nested_str _
    ('#' :: 'i' :: 'n' :: 's' :: 't' :: ' ' :: '"' :: (c.data ++ ['"']))
    5 1 5 c.data rfl hq hbs hnl]
  simp only [finishToken, closesQ]
  simp

/-- Decoding `#uuid "<canonical>"` yields the identifier with that
canonical text. -/
theorem decode_tag_uuid (c : String) (hq : '"' ∉ c.data) (hbs : '\\' ∉ c.data)
    (hnl : '\n' ∉ c.data) :
    decodeText ("#uuid \"" ++ c ++ "\"") = .ok (.uuid c) := by
  have hdata : ("#uuid \"" ++ c ++ "\"").data
      = '#' :: 'u' :: 'u' :: 'i' :: 'd' :: ' ' :: '"' :: (c.data ++ ['"']) := by
    rw [String.data_append, String.data_append]
    rfl
  simp only [decodeText, hdata, List.length_cons]
  rw [decodeLoop]
  simp only [List.length_cons]
  rw [readToken]
  have hskip : skipStopsL
      ('#' :: 'u' :: 'u' :: 'i' :: 'd' :: ' ' :: '"' :: (c.data ++ ['"']))
      = (some '#', ['#']) := by
    rw [skipStopsL, if_neg (by decide)]
  simp only [RS.rem, List.drop_zero, hskip]
  rw [advChars_single _ '#' (by decide)]
  have hgt : getTypeD '#'
      ⟨'#' :: 'u' :: 'u' :: 'i' :: 'd' :: ' ' :: '"' :: (c.data ++ ['"']), 1, 1, 1⟩
      = (.uuidT, false, none) := rfl
  rw [hgt]
  have hreadN : readN
      ⟨'#' :: 'u' :: 'u' :: 'i' :: 'd' :: ' ' :: '"' :: (c.data ++ ['"']), 1, 1, 1⟩ 4
      = (['u', 'u', 'i', 'd'],
         ⟨'#' :: 'u' :: 'u' :: 'i' :: 'd' :: ' ' :: '"' :: (c.data ++ ['"']), 5, 1, 5⟩) := rfl
  rw [hreadN]
  rw [readToken_nested_str _
    ('#' :: 'u' :: 'u' :: 'i' :: 'd' :: ' ' :: '"' :: (c.data ++ ['"']))
    5 1 5 c.data rfl hq hbs hnl]
  simp only [finishToken, closesQ]
  simp

/-! ## Claims -/

/-- C10: decoding a map literal with an odd number of members raises: the
pair folding assumes an even count and the final unpaired member trips an
index-out-of-range failure, which carries no line/column.  Concretely,
`loads('\x7b:a 1 :b\x7d')` raises `IndexError`; in general an odd member
list always makes the fold raise. -/
theorem C10_odd_map_indexerror :
    decodeText "\x7b:a 1 :b\x7d" = .error .indexErr ∧
    DErr.hasPos .indexErr = false ∧
    ∀ (ns : Option String) (acc : List (Value × Value)) (scope : List Value),
      scope.length % 2 = 1 → ∃ e, foldPairsAux ns acc scope = .error e :=
  ⟨rfl, rfl, fun ns acc scope h => foldPairsAux_odd_error ns scope acc h⟩

/-- Witness for C10 at the concrete odd member list `[:b]`. -/
theorem C10_odd_map_indexerror_witness :
    ([(Value.str "b")].length % 2 = 1) ∧
    (∃ e, foldPairsAux none [] [Value.str "b"] = .error e) :=
  ⟨by decide, C10_odd_map_indexerror.2.2 none [] [Value.str "b"] (by decide)⟩

/-- C3 counterexample: the claim says every decode failure carries line and
column, including unexpected end of input — but the source raises the EOF
error as a bare `ValueError("Unexpected EOF")` with no position, e.g. on
the spec's own unterminated example `[1 2`. -/
theorem C3_eof_no_position_cex :
    decodeText "[1 2" = .error .eof ∧ DErr.hasPos .eof = false := ⟨rfl, rfl⟩

/-- C3 (amended): decode failures for misspelled literal keywords and for
unrecognized lead characters carry the current line and column, but the
unexpected-end-of-input failure does not, and neither does the
tagged-literal payload-type failure (`Str expected`). -/
theorem C3_error_positions :
    decodeText "truX" = .error (.expectTrue "ruX" 1 5) ∧
    DErr.hasPos (.expectTrue "ruX" 1 5) = true ∧
    decodeText "@" = .error (.unexpectedChar '@' 1 1) ∧
    DErr.hasPos (.unexpectedChar '@' 1 1) = true ∧
    decodeText "[1 2" = .error DErr.eof ∧
    DErr.hasPos DErr.eof = false ∧
    decodeText "#inst 5" = .error DErr.strExpected ∧
    DErr.hasPos DErr.strExpected = false :=
  ⟨rfl, rfl, rfl, rfl, rfl, rfl, rfl, rfl⟩

/-- C4: the encoder's `CircularReferenceError` fires exactly on repeated
collection identity within one top-level call: a list containing itself
raises; the same list object in two positions (diamond sharing) raises;
two structurally equal but distinct list objects do not raise; and the
visited set is per call — the object that made the previous top-level call
fail encodes fine in a fresh call. -/
theorem C4_identity_cycle_detection :
    encodeTop [.olist [.ref 0]] (.ref 0) = .error .circular ∧
    encodeTop [.olist [.ref 1, .ref 1], .olist [.vint 1]] (.ref 0) = .error .circular ∧
    encodeTop [.olist [.ref 1, .ref 2], .olist [.vint 1], .olist [.vint 1]] (.ref 0)
      = .ok "[[1] [1]]" ∧
    encodeTop [.olist [.ref 1, .ref 1], .olist [.vint 1]] (.ref 1) = .ok "[1]" :=
  ⟨rfl, rfl, rfl, rfl⟩

/-- C7: a set literal whose decoded members are unhashable does not fail —
the `set(...)` call's `TypeError` is caught and an ordered `tuple` of the
members is produced instead; hashable members produce a unique-element
set.  The general fact: any member list that is not all-hashable folds to
the ordered sequence of the members. -/
theorem C7_set_unhashable_fallback :
    decodeText "#\x7b[1] [2]\x7d" = .ok (.tuple [.list [.int 1], .list [.int 2]]) ∧
    decodeText "#\x7b1 2 2\x7d" = .ok (.set [.int 1, .int 2]) ∧
    ∀ (ns : Option String) (scope : List Value),
      scope.all pyHashable = false → foldScope .kset ns scope = .ok (.tuple scope) :=
  ⟨rfl, rfl, fun ns scope h => by simp [foldScope, h]⟩

/-- Witness for C7 at the concrete unhashable member list `[[]]`. -/
theorem C7_set_unhashable_fallback_witness :
    ([Value.list []].all pyHashable = false) ∧
    foldScope .kset none [Value.list []] = .ok (.tuple [Value.list []]) :=
  ⟨by decide, C7_set_unhashable_fallback.2.2 none [Value.list []] (by decide)⟩

/-- C2 counterexample: the claim says a mismatched closing terminator
raises a SyntaxError-class error, but the decoder silently skips it:
`loads("[1 2) 3]")` returns `[1, 2, 3]`. -/
theorem C2_mismatched_close_cex :
    decodeText "[1 2) 3]" = .ok (.list [.int 1, .int 2, .int 3]) := rfl

/-- C2 (amended): a closing character read where a value is expected that
differs from the active terminator is silently ignored — `__read_token`
returns no value, closes no frame, appends nothing, and only the stream
position advances; decoding `[1 2) 3]` therefore yields `[1, 2, 3]`. -/
theorem C2_mismatched_close_ignored :
    decodeText "[1 2) 3]" = .ok (.list [.int 1, .int 2, .int 3]) ∧
    ∀ (f pos line col : Nat) (d rest : List Char) (stack : List Frame)
      (term : Option Char) (c : Char),
      (⟨d, pos, line, col⟩ : RS).rem = c :: rest →
      c ∈ collCloseChars →
      closesQ (some c) term = false →
      readToken (f + 1) ⟨⟨d, pos, line, col⟩, stack, term⟩ =
        .ok (.nil, ⟨⟨d, pos + 1, line, col⟩, stack, term⟩) := by
  refine ⟨rfl, ?_⟩
  intro f pos line col d rest stack term c hrem hc hcl
  have hnl : c ≠ '\n' := by
    simp only [collCloseChars, List.mem_cons, List.not_mem_nil, or_false] at hc
    rcases hc with rfl | rfl | rfl <;> decide
  have hnotstop : ¬ c ∈ stopChars := by
    simp only [collCloseChars, List.mem_cons, List.not_mem_nil, or_false] at hc
    rcases hc with rfl | rfl | rfl <;> decide
  have hskip : skipStopsL (c :: rest) = (some c, [c]) := by
    rw [skipStopsL, if_neg hnotstop]
  have hgt : ∀ s, getTypeD c s = (.unknown, false, none) := by
    simp only [collCloseChars, List.mem_cons, List.not_mem_nil, or_false] at hc
    rcases hc with rfl | rfl | rfl <;> exact fun s => rfl
  have hinc : ¬ c ∉ collCloseChars := fun hn => hn hc
  rw [readToken]
  simp only [hrem, hskip, advChars_single _ c hnl, hgt]
  simp only [finishToken, hcl, Bool.false_eq_true, if_false, if_neg hinc]

/-- Witness for C2: a `)` read while the innermost frame expects `]` is
skipped, leaving stack and terminator untouched. -/
theorem C2_mismatched_close_ignored_witness :
    readToken 1 ⟨⟨[')', ']'], 0, 1, 1⟩, [⟨[], ']', .klist, none⟩], some ']'⟩ =
      .ok (.nil, ⟨⟨[')', ']'], 1, 1, 1⟩, [⟨[], ']', .klist, none⟩], some ']'⟩) :=
  C2_mismatched_close_ignored.2 0 0 1 1 [')', ']'] [']']
    [⟨[], ']', .klist, none⟩] (some ']') ')' rfl (by decide) (by decide)

/-- C9 counterexample: the claim says the Escape Resolver never raises and
passes `\x` followed by non-hex characters through verbatim — but the
regex's `.` matches any non-newline character, so `\xzz` is captured as an
escape and its decoding raises `UnicodeDecodeError`. -/
theorem C9_resolver_raises_cex :
    decodeEscapes noLookup "\\xzz" = .error .badEscape := rfl

/-- C9 (amended): the resolver rewrites recognized escapes and passes
unmatched text through verbatim (isolated backslashes included, and `\x`
with too few following characters), and it never raises on
backslash-free text; but `\x`/`\u`/`\U` followed by the full count of
arbitrary non-newline characters is captured as an escape, and non-hex
characters there make decoding the match raise. -/
theorem C9_escape_resolver :
    (∀ lookup, decodeEscapes lookup "a\\nb" = .ok "a\nb") ∧
    (∀ lookup, decodeEscapes lookup "\\q" = .ok "\\q") ∧
    (∀ lookup, decodeEscapes lookup "\\x4" = .ok "\\x4") ∧
    (∀ lookup, decodeEscapes lookup "\\xzz" = .error .badEscape) ∧
    (∀ (lookup : String → Option Char) (s : String),
      '\\' ∉ s.data → decodeEscapes lookup s = .ok s) := by
  refine ⟨fun _ => rfl, fun _ => rfl, fun _ => rfl, fun _ => rfl, ?_⟩
  intro lookup s h
  unfold decodeEscapes
  rw [escScanF_no_bs lookup s.data (s.data.length + 1) (by omega) h]
  rfl

/-- Witness for C9 on the concrete backslash-free text `abc`. -/
theorem C9_escape_resolver_witness :
    ('\\' ∉ "abc".data) ∧ decodeEscapes noLookup "abc" = .ok "abc" :=
  ⟨by decide, C9_escape_resolver.2.2.2.2 noLookup "abc" (by decide)⟩

/-- C6 counterexample: by the claim, a `"` preceded by an even run of
backslashes terminates the string, so the text `"a\\"` (quote, `a`, two
backslashes, quote) would decode to the two-character string `a\`.  The
scanner instead only inspects the single previous character, treats the
closing quote as escaped, and runs past it: alone it never terminates, and
with ` b"` appended it happily returns `a\" b`. -/
theorem C6_even_backslash_run_cex :
    decodeText "\"a\\\\\"" = .error DErr.hang ∧
    decodeText "\"a\\\\\" b\"" = .ok (.str "a\\\" b") := ⟨rfl, rfl⟩

/-- C6 (amended): the scanner stops at the first `"` whose immediately
preceding character is not a backslash — a one-character look-behind that
miscounts even runs of backslashes, so a `"` after `\\` does not
terminate; the accumulated body then goes through the Escape Resolver. -/
theorem C6_string_termination :
    decodeText "\"ab\"" = .ok (.str "ab") ∧
    decodeText "\"a\\\"b\"" = .ok (.str "a\"b") ∧
    decodeText "\"a\\\\\"" = .error DErr.hang ∧
    (∀ (cp : Option Char) (rest : List Char),
      strScanL cp ('"' :: rest) = some ([], rest) ↔ cp ≠ some '\\') := by
  refine ⟨rfl, rfl, rfl, ?_⟩
  intro cp rest
  constructor
  · intro h hcp
    subst hcp
    simp only [strScanL, ne_eq, not_true_eq_false, and_false, if_false] at h
    cases hs : strScanL (some '"') rest with
    | none => rw [hs] at h; exact Option.noConfusion h
    | some p =>
      obtain ⟨b, r⟩ := p
      rw [hs] at h
      simp at h
  · intro hcp
    simp [strScanL, hcp]

/-- C5 counterexample: the claim says every key of every decoded mapping
is a string, but a plain map literal keeps the decoded key values as they
are: `loads('\x7b1 2\x7d')` is the mapping with integer key `1`. -/
theorem C5_nonstring_key_cex :
    decodeText "\x7b1 2\x7d" = .ok (.dict [(.int 1, .int 2)]) ∧
    (Value.int 1).isStr = false := ⟨rfl, rfl⟩

/-- C5 (amended): keys of a plain map are the decoded key values
themselves and need not be strings; for a namespaced map literal with a
nonempty namespace, every key is the namespace joined to the written key
with `/`, and is always a string — e.g.
`decode_from_text('#:ns\x7b:a 1\x7d')` is the mapping `ns/a ↦ 1`. -/
theorem C5_map_keys :
    decodeText "#:ns\x7b:a 1\x7d" = .ok (.dict [(.str "ns/a", .int 1)]) ∧
    decodeText "\x7b1 2\x7d" = .ok (.dict [(.int 1, .int 2)]) ∧
    (∀ (n : String) (scope : List Value) (res : List (Value × Value)),
      n ≠ "" →
      foldPairsAux (some n) [] scope = .ok res →
      ∀ p ∈ res, p.1.isStr = true) :=
  ⟨rfl, rfl, fun n scope res hn heq =>
    foldPairs_ns_keys n hn scope [] res (by simp) heq⟩

/-- The keyword/character loop run to end of stream: every character of
the stream passes the guard, so all are accumulated, plus the final empty
read; the stopping character is the empty read. -/
theorem tokLoopL_eof :
    ∀ (cs : List Char) (term : Option Char) (c0 : Option Char),
      tokGuard term c0 = true →
      (∀ c ∈ cs, tokGuard term (some c) = true) →
      tokLoopL term c0 cs = (cs.map some ++ [none], none, cs) := by
  intro cs
  induction cs with
  | nil =>
    intro term c0 h _
    simp [tokLoopL, h]
  | cons a rest ih =>
    intro term c0 h hall
    have ha := hall a (List.mem_cons_self _ _)
    rw [tokLoopL, if_pos h]
    rw [ih term (some a) ha (fun c hc => hall c (List.mem_cons_of_mem _ hc))]
    rfl

/-- C8 counterexample: the claim says a character literal decodes to a
single code point, but accumulation keeps every character up to the stop:
`loads('\\ab')` is the two-character string `ab`. -/
theorem C8_multichar_char_literal_cex :
    decodeText "\\ab" = .ok (.str "ab") ∧ ("ab" : String).length ≠ 1 :=
  ⟨rfl, by decide⟩

/-- C8 (amended): a character literal decodes to the entire accumulated
token text — all characters following the backslash up to the first
whitespace character, active terminator, or end of stream — which is a
single code point only when exactly one character precedes the stop. -/
theorem C8_char_literal_token :
    decodeText "\\a" = .ok (.str "a") ∧
    decodeText "\\ab" = .ok (.str "ab") ∧
    ∀ (t : String), (∀ c ∈ t.data, c ∉ stopChars) →
      decodeText ("\\" ++ t) = .ok (.str t) := by
  refine ⟨rfl, rfl, ?_⟩
  intro t h
  have hdata : ("\\" ++ t).data = '\\' :: t.data := by
    rw [String.data_append]
    rfl
  have htok : tokLoopL none (some '\\') t.data
      = (t.data.map some ++ [none], none, t.data) := by
    refine tokLoopL_eof t.data none (some '\\') (by decide) ?_
    intro c hc
    simp only [tokGuard, Bool.true_and]
    exact decide_eq_true (h c hc)
  simp only [decodeText, hdata, List.length_cons]
  rw [decodeLoop]
  simp only [List.length_cons]
  rw [readToken]
  have hskip : skipStopsL ('\\' :: t.data) = (some '\\', ['\\']) := by
    rw [skipStopsL, if_neg (by decide)]
  simp only [RS.rem, List.drop_zero, hskip]
  have hadv : advChars ⟨'\\' :: t.data, 0, 1, 1⟩ ['\\'] = ⟨'\\' :: t.data, 1, 1, 1⟩ := rfl
  rw [hadv]
  have hgt : getTypeD '\\' ⟨'\\' :: t.data, 1, 1, 1⟩ = (.charT, false, none) := rfl
  rw [hgt]
  simp only [RS.rem, List.drop_succ_cons, List.drop_zero, htok]
  simp only [finishToken, closesQ, List.dropLast_concat, List.filterMap_map,
    Function.comp_def, Option.some.injEq]
  simp [List.filterMap_some]

/-- Witness for C8 at the concrete token `xy`. -/
theorem C8_char_literal_token_witness :
    (∀ c ∈ ("xy" : String).data, c ∉ stopChars) ∧
    decodeText ("\\" ++ "xy") = .ok (.str "xy") :=
  ⟨by decide, C8_char_literal_token.2.2 "xy" (by decide)⟩

/-- Witness for C5 on the concrete namespaced member list `[:a 1]`. -/
theorem C5_map_keys_witness :
    ("ns" : String) ≠ "" ∧
    (∀ p ∈ [((Value.str "ns/a"), Value.int 1)], (Prod.fst p).isStr = true) :=
  ⟨by decide,
   C5_map_keys.2.2 "ns" [Value.str "a", Value.int 1]
     [((Value.str "ns/a"), Value.int 1)] (by decide) rfl⟩

/-- C1 counterexample: encoding the two-character string `a\` produces the
five-character text `"a\\"`, whose closing quote the scanner's
one-character look-behind treats as escaped, so decoding runs off the end
of the input instead of returning the string. -/
theorem C1_backslash_string_cex :
    encodeTop [] (.vstr "a\\") = .ok "\"a\\\\\"" ∧
    decodeText "\"a\\\\\"" = .error DErr.hang :=
  ⟨rfl, rfl⟩

/-- C1 (amended): decode after encode is the identity on nil, booleans,
integers, canonical fixed-notation decimal tokens, BMP strings whose last
character is not a backslash, and timestamps/identifiers whose canonical
text is free of quotes, backslashes and newlines — but not on every
scalar: a string ending in a backslash round-trips to a decode failure. -/
theorem C1_scalar_round_trip :
    roundTrips .vnil .nil ∧
    (∀ b : Bool, roundTrips (.vbool b) (.bool b)) ∧
    (∀ n : Int, roundTrips (.vint n) (.int n)) ∧
    (∀ t : String, isDecTok t = true → roundTrips (.vdec t) (.dec t)) ∧
    (∀ s : String, (∀ c ∈ s.data, c.toNat ≤ 0xFFFF) →
      s.data.getLast? ≠ some '\\' →
      roundTrips (.vstr s) (.str s)) ∧
    (∀ c : String, '"' ∉ c.data → '\\' ∉ c.data → '\n' ∉ c.data →
      roundTrips (.vdatetime c true) (.datetime c)) ∧
    (∀ c : String, '"' ∉ c.data → '\\' ∉ c.data → '\n' ∉ c.data →
      roundTrips (.vuuid c) (.uuid c)) := by
  refine ⟨⟨"nil", rfl, rfl⟩, ?_, ?_, ?_, ?_, ?_, ?_⟩
  · intro b
    cases b
    · exact ⟨"false", rfl, rfl⟩
    · exact ⟨"true", rfl, rfl⟩
  · intro n
    exact ⟨pyIntStr n, rfl, decode_pyIntStr n⟩
  · intro t ht
    exact ⟨t ++ "M", rfl, decode_decTok t ht⟩
  · intro s hbmp hlast
    exact ⟨pyEncStr s, rfl,
      decode_pyEncStr s hbmp (fun x hx he => hlast (he ▸ hx))⟩
  · intro c h1 h2 h3
    exact ⟨"#inst \"" ++ c ++ "\"", rfl, decode_tag_inst c h1 h2 h3⟩
  · intro c h1 h2 h3
    exact ⟨"#uuid \"" ++ c ++ "\"", rfl, decode_tag_uuid c h1 h2 h3⟩

/-- Witness for C1 at concrete scalars of each round-tripping kind. -/
theorem C1_scalar_round_trip_witness :
    roundTrips (.vint (-37)) (.int (-37)) ∧
    roundTrips (.vdec "12.34") (.dec "12.34") ∧
    roundTrips (.vstr "a\"b") (.str "a\"b") ∧
    roundTrips (.vdatetime "1985-04-12T23:20:50Z" true)
      (.datetime "1985-04-12T23:20:50Z") ∧
    roundTrips (.vuuid "f81d4fae-7dec-11d0-a765-00a0c91e6bf6")
      (.uuid "f81d4fae-7dec-11d0-a765-00a0c91e6bf6") :=
  ⟨C1_scalar_round_trip.2.2.1 (-37),
   C1_scalar_round_trip.2.2.2.1 "12.34" (by decide),
   C1_scalar_round_trip.2.2.2.2.1 "a\"b" (by decide) (by decide),
   C1_scalar_round_trip.2.2.2.2.2.1 "1985-04-12T23:20:50Z"
     (by decide) (by decide) (by decide),
   C1_scalar_round_trip.2.2.2.2.2.2 "f81d4fae-7dec-11d0-a765-00a0c91e6bf6"
     (by decide) (by decide) (by decide)⟩

end Clj
